import Mathlib

/-!
A formal model of the renderer scheduler core of this repository:
`components/scheduler/base/work_queue_sets.cc`,
`components/scheduler/base/real_time_domain.cc` and
`components/scheduler/renderer/throttling_helper.cc`.

Modelling conventions:
* `base::TimeTicks` and `base::TimeDelta` are signed 64-bit microsecond
  counts; we model them as unbounded `Int` (microseconds), with
  `base::TimeTicks()` (the null/zero value) as `0`.
* The C++ `%` on `base::TimeDelta` is C++ integer remainder, which
  truncates toward zero; we model it with `Int.tmod`.
* `DCHECK` failures are modelled as `Option.none` results (debug-build
  semantics): a `none` result marks a fatal contract violation.
* `EnqueueOrder` is a monotonically increasing 64-bit counter; we model it
  as `Nat`.
-/

/-- One second expressed in microseconds
(`base::TimeDelta::FromSeconds(1)` as a microsecond count). -/
def oneSecond : Int := 1000000

/-- `ThrottlingHelper::ThrottledRunTime` (throttling_helper.cc):
`unthrottled_runtime + one_second - ((unthrottled_runtime - base::TimeTicks()) % one_second)`. -/
def ThrottledRunTime (unthrottledRuntime : Int) : Int :=
  unthrottledRuntime + oneSecond - (unthrottledRuntime - 0).tmod oneSecond

/-- Global enqueue order (`EnqueueOrder`, a monotonically increasing 64-bit
counter), modelled as `Nat`. -/
abbrev EnqueueOrder := Nat

/-- Modelled from the spec: `WorkQueue` (work_queue.cc is not under src/) holds
an oldest-first ordered sequence of pending tasks, each tagged with its
enqueue order, plus the recorded set index used by `WorkQueueSets`. Tasks are
represented by their enqueue orders. -/
structure WorkQueue where
  id : Nat
  workQueueSetIndex : Nat
  tasks : List EnqueueOrder
deriving Repr, DecidableEq

/-- Modelled from the spec: `WorkQueue::GetFrontTaskEnqueueOrder` exposes the
front task's enqueue order without dequeuing, or none for an empty queue. -/
def WorkQueue.GetFrontTaskEnqueueOrder (wq : WorkQueue) : Option EnqueueOrder :=
  wq.tasks.head?

/-- Insert a (key, queue id) pair into an association list sorted by key,
modelling `std::map<EnqueueOrder, WorkQueue*>::insert`. -/
def insertPair (p : Nat × Nat) : List (Nat × Nat) → List (Nat × Nat)
  | [] => [p]
  | q :: rest => if p.1 ≤ q.1 then p :: q :: rest else q :: insertPair p rest

/-- Erase the entry with the given key from an association list, modelling
`std::map::erase(key)`. -/
def eraseKey (k : Nat) : List (Nat × Nat) → List (Nat × Nat)
  | [] => []
  | q :: rest => if q.1 = k then rest else q :: eraseKey k rest

/-- Look up the value stored under a key, modelling `std::map::find`. -/
def lookupKey (k : Nat) : List (Nat × Nat) → Option Nat
  | [] => none
  | q :: rest => if q.1 = k then some q.2 else lookupKey k rest

/-- Replace the element at index `i` of a list by applying `f` to it. -/
def updateAt : Nat → (α → α) → List α → List α
  | _, _, [] => []
  | 0, f, x :: xs => f x :: xs
  | i + 1, f, x :: xs => x :: updateAt i f xs

/-- `WorkQueueSets` (work_queue_sets.cc): one ordered map per priority set,
from front-task enqueue order to the queue (represented by its id). -/
structure WorkQueueSets where
  enqueueOrderToWorkQueueMaps : List (List (Nat × Nat))
deriving Repr, DecidableEq

/-- The map of one priority set (out-of-range indexes read as empty). -/
def WorkQueueSets.setMap (sets : WorkQueueSets) (setIndex : Nat) : List (Nat × Nat) :=
  sets.enqueueOrderToWorkQueueMaps.getD setIndex []

/-- `WorkQueueSets::RemoveQueue` (work_queue_sets.cc): if the queue has no
front task, do nothing; otherwise erase its entry from its current set's map.
The `DCHECK`s (set index in range, the entry found under the key is this
queue) are modelled as `none` on failure. -/
def WorkQueueSets.RemoveQueue (sets : WorkQueueSets) (wq : WorkQueue) :
    Option WorkQueueSets :=
  match wq.GetFrontTaskEnqueueOrder with
  | none => some sets
  | some eo =>
    let s := wq.workQueueSetIndex
    if s < sets.enqueueOrderToWorkQueueMaps.length then
      match lookupKey eo (sets.setMap s) with
      | some qid =>
        if qid = wq.id then
          some ⟨updateAt s (eraseKey eo) sets.enqueueOrderToWorkQueueMaps⟩
        else none
      | none => none
    else none

/-- `WorkQueueSets::AssignQueueToSet` (work_queue_sets.cc): records the new
set index on the queue; when the queue has a front task, moves its entry from
the old set's map to the new set's map under the same key. -/
def WorkQueueSets.AssignQueueToSet (sets : WorkQueueSets) (wq : WorkQueue)
    (setIndex : Nat) : Option (WorkQueueSets × WorkQueue) :=
  if setIndex < sets.enqueueOrderToWorkQueueMaps.length then
    let oldSet := wq.workQueueSetIndex
    if oldSet < sets.enqueueOrderToWorkQueueMaps.length then
      let wq' := { wq with workQueueSetIndex := setIndex }
      match wq.GetFrontTaskEnqueueOrder with
      | none => some (sets, wq')
      | some eo =>
        some (⟨updateAt setIndex (insertPair (eo, wq.id))
                (updateAt oldSet (eraseKey eo) sets.enqueueOrderToWorkQueueMaps)⟩,
              wq')
    else none
  else none

/-- `WorkQueueSets::OnPushQueue` (work_queue_sets.cc): requires the queue to
have a front task (`DCHECK(has_enqueue_order)`), then inserts the queue into
its current set's map under that enqueue order. -/
def WorkQueueSets.OnPushQueue (sets : WorkQueueSets) (wq : WorkQueue) :
    Option WorkQueueSets :=
  match wq.GetFrontTaskEnqueueOrder with
  | none => none
  | some eo =>
    if wq.workQueueSetIndex < sets.enqueueOrderToWorkQueueMaps.length then
      some ⟨updateAt wq.workQueueSetIndex (insertPair (eo, wq.id))
              sets.enqueueOrderToWorkQueueMaps⟩
    else none

/-- `WorkQueueSets::OnPopQueue` (work_queue_sets.cc): called after a task was
popped from the front of `wq`. Asserts the set map is non-empty and that its
minimum entry (`begin()`) is this queue, erases that entry, and reinserts the
queue under its new front enqueue order when it still has one. -/
def WorkQueueSets.OnPopQueue (sets : WorkQueueSets) (wq : WorkQueue) :
    Option WorkQueueSets :=
  let s := wq.workQueueSetIndex
  if s < sets.enqueueOrderToWorkQueueMaps.length then
    match (sets.setMap s).head? with
    | none => none
    | some p =>
      if p.2 = wq.id then
        let afterErase := (sets.setMap s).tail
        let newMap :=
          match wq.GetFrontTaskEnqueueOrder with
          | none => afterErase
          | some eo => insertPair (eo, wq.id) afterErase
        some ⟨updateAt s (fun _ => newMap) sets.enqueueOrderToWorkQueueMaps⟩
      else none
  else none

/-- `WorkQueueSets::GetOldestQueueInSet` (work_queue_sets.cc): none when the
set's map is empty, otherwise the queue stored under `begin()`, the smallest
key of the ordered map. -/
def WorkQueueSets.GetOldestQueueInSet (sets : WorkQueueSets) (setIndex : Nat) :
    Option Nat :=
  (sets.setMap setIndex).head?.map (fun p => p.2)

/-- `WorkQueueSets::IsSetEmpty` (work_queue_sets.cc). -/
def WorkQueueSets.IsSetEmpty (sets : WorkQueueSets) (setIndex : Nat) : Bool :=
  (sets.setMap setIndex).isEmpty

/-- Whole-scheduler state used to reason about sequences of pushes and pops:
the queues, the sets bookkeeping, and the global enqueue-order counter. -/
structure SchedulerState where
  queues : List WorkQueue
  sets : WorkQueueSets
  nextEnqueueOrder : Nat
deriving Repr, DecidableEq

/-- An externally driven operation on the scheduler state. -/
inductive SchedOp where
  | push (qid : Nat)
  | pop (qid : Nat)
deriving Repr, DecidableEq

/-- Replace the queue with the given id. -/
def replaceQueue (queues : List WorkQueue) (qid : Nat) (wq' : WorkQueue) :
    List WorkQueue :=
  queues.map (fun q => if q.id = qid then wq' else q)

/-- Modelled from the spec: the enqueue path of `TaskQueueImpl` (not under
src/) assigns the next global enqueue order to the pushed task, appends it to
the back of the work queue, and calls `WorkQueueSets::OnPushQueue` when the
queue previously had no front task. -/
def pushTask (st : SchedulerState) (qid : Nat) : Option SchedulerState :=
  match st.queues.find? (fun wq => wq.id = qid) with
  | none => none
  | some wq =>
    let wq' := { wq with tasks := wq.tasks ++ [st.nextEnqueueOrder] }
    let queues' := replaceQueue st.queues qid wq'
    if wq.tasks.isEmpty then
      match st.sets.OnPushQueue wq' with
      | none => none
      | some sets' => some ⟨queues', sets', st.nextEnqueueOrder + 1⟩
    else some ⟨queues', st.sets, st.nextEnqueueOrder + 1⟩

/-- Modelled from the spec: the dequeue path of `TaskQueueImpl` (not under
src/) pops the front task of the work queue and then calls
`WorkQueueSets::OnPopQueue` on the popped queue. -/
def popTask (st : SchedulerState) (qid : Nat) : Option SchedulerState :=
  match st.queues.find? (fun wq => wq.id = qid) with
  | none => none
  | some wq =>
    match wq.tasks with
    | [] => none
    | _ :: rest =>
      let wq' := { wq with tasks := rest }
      match st.sets.OnPopQueue wq' with
      | none => none
      | some sets' => some ⟨replaceQueue st.queues qid wq', sets', st.nextEnqueueOrder⟩

/-- Run one operation. -/
def applyOp (st : SchedulerState) : SchedOp → Option SchedulerState
  | SchedOp.push qid => pushTask st qid
  | SchedOp.pop qid => popTask st qid

/-- Run a sequence of operations, failing as soon as one fails. -/
def runOps (st : SchedulerState) : List SchedOp → Option SchedulerState
  | [] => some st
  | op :: ops =>
    match applyOp st op with
    | none => none
    | some st' => runOps st' ops

/-- The initial state: the given queues (id, set index), all empty, empty set
maps for `numSets` priority sets, and the enqueue-order counter at zero. -/
def initialState (numSets : Nat) (queueIds : List (Nat × Nat)) : SchedulerState :=
  ⟨queueIds.map (fun p => ⟨p.1, p.2, []⟩),
   ⟨List.replicate numSets []⟩, 0⟩

/-- A queue of `queues` registered in set `s` under key `eo` with id `qid`:
the content a well-formed set map must hold. -/
def frontEntryIn (queues : List WorkQueue) (s eo qid : Nat) : Prop :=
  ∃ wq ∈ queues, wq.id = qid ∧ wq.workQueueSetIndex = s ∧
    wq.tasks.head? = some eo

/-- The well-formedness invariant maintained by the scheduler: distinct queue
ids, in-range set indexes, strictly increasing task lists below the global
counter, pairwise disjoint task sets, sorted set maps, and set maps holding
exactly the front task of each non-empty queue of the set. -/
structure SchedInv (st : SchedulerState) : Prop where
  nodupIds : (st.queues.map (fun q => q.id)).Nodup
  setIndexLt : ∀ wq ∈ st.queues,
    wq.workQueueSetIndex < st.sets.enqueueOrderToWorkQueueMaps.length
  tasksSorted : ∀ wq ∈ st.queues, wq.tasks.Pairwise (· < ·)
  tasksLt : ∀ wq ∈ st.queues, ∀ eo ∈ wq.tasks, eo < st.nextEnqueueOrder
  tasksDisjoint : ∀ wq1 ∈ st.queues, ∀ wq2 ∈ st.queues, wq1.id ≠ wq2.id →
    ∀ eo ∈ wq1.tasks, eo ∉ wq2.tasks
  mapsSorted : ∀ s, (st.sets.setMap s).Pairwise (fun p q => p.1 < q.1)
  content : ∀ s, s < st.sets.enqueueOrderToWorkQueueMaps.length →
    ∀ eo qid, (eo, qid) ∈ st.sets.setMap s ↔ frontEntryIn st.queues s eo qid

/-- The concrete state reached from two queues in set 0 by pushing a task on
each and popping the first queue; used to witness the `GetOldestQueueInSet`
theorem. -/
def c3State : SchedulerState :=
  ⟨[⟨0, 0, []⟩, ⟨1, 0, [1]⟩], ⟨[[(1, 1)]]⟩, 2⟩

/-- Concrete sets used to witness the `OnPopQueue` theorem: one set whose map
holds queue 7 under key 0 and queue 8 under key 2. -/
def c5Sets : WorkQueueSets := ⟨[[(0, 7), (2, 8)]]⟩

/-- Queue 7 right after its front task (order 0) was popped; its new front
task has order 5. -/
def c5Queue : WorkQueue := ⟨7, 0, [5]⟩

/-- Concrete sets used to witness the `RemoveQueue` theorem. -/
def c9Sets : WorkQueueSets := ⟨[[(3, 4)], [(5, 6)]]⟩

/-- Queue 4, registered in set 0 under its front order 3. -/
def c9Queue : WorkQueue := ⟨4, 0, [3, 9]⟩

/-- `RealTimeDomain` (real_time_domain.cc). Modelled from the spec: the
`TimeDomain` base state (time_domain.cc is not under src/) is the set of
scheduled delayed run times contributed by the domain's queues, here a list
of times. -/
structure RealTimeDomain where
  wakeups : List Int
deriving Repr, DecidableEq

/-- Modelled from the spec: `TimeDomain::NextScheduledRunTime` (not under
src/) returns the earliest pending delayed run time, or none when there is
none. -/
def RealTimeDomain.NextScheduledRunTime (d : RealTimeDomain) : Option Int :=
  d.wakeups.min?

/-- `RealTimeDomain::ComputeDelayedRunTime` (real_time_domain.cc). -/
def RealTimeDomain.ComputeDelayedRunTime (timeDomainNow delay : Int) : Int :=
  timeDomainNow + delay

/-- `RealTimeDomain::MaybeAdvanceTime` (real_time_domain.cc): the boolean
result, paired with the delay passed to the manager's
`MaybeScheduleDelayedWork` when a future wake-up is requested (none when no
request is made). -/
def RealTimeDomain.MaybeAdvanceTime (d : RealTimeDomain) (now : Int) :
    Bool × Option Int :=
  match d.NextScheduledRunTime with
  | none => (false, none)
  | some next =>
    if next ≤ now then (true, none)
    else (false, some (next - now))

/-- `TaskQueue::PumpPolicy` (task_queue declarations). -/
inductive PumpPolicy where
  | AUTO
  | MANUAL
deriving Repr, DecidableEq

/-- Which time domain a queue currently references. -/
inductive TimeDomainKind where
  | realTime
  | throttled
deriving Repr, DecidableEq

/-- Modelled from the spec: the `TaskQueue` surface used by
`ThrottlingHelper` (task_queue_impl.cc is not under src/): a time domain, a
pump policy, pending immediate tasks, pending delayed tasks as
(run time, task id) pairs, and already dispatched task ids. -/
structure TaskQueue where
  id : Nat
  timeDomain : TimeDomainKind
  pumpPolicy : PumpPolicy
  immediateTasks : List Nat
  delayedTasks : List (Int × Nat)
  dispatched : List Nat
deriving Repr, DecidableEq

/-- Modelled from the spec: `TaskQueue::IsEmpty`. -/
def TaskQueue.IsEmpty (q : TaskQueue) : Bool :=
  q.immediateTasks.isEmpty && q.delayedTasks.isEmpty

/-- Modelled from the spec: `TaskQueue::HasPendingImmediateWork`. -/
def TaskQueue.HasPendingImmediateWork (q : TaskQueue) : Bool :=
  !q.immediateTasks.isEmpty

/-- Modelled from the spec: `TaskQueue::PumpQueue` drains the queue's pending
work into the dispatch path. -/
def TaskQueue.PumpQueue (q : TaskQueue) : TaskQueue :=
  { q with
    immediateTasks := [],
    delayedTasks := [],
    dispatched := q.dispatched ++ q.immediateTasks
      ++ q.delayedTasks.map (fun p => p.2) }

/-- The earliest delayed run time of a queue, if any. -/
def queueNextDelayedRuntime (q : TaskQueue) : Option Int :=
  (q.delayedTasks.map (fun p => p.1)).min?

/-- Modelled from the spec: the `TimeDomain` base state of the throttled
domain (throttled_time_domain.cc / time_domain.cc are not under src/): the
domain's current time and its pending delayed wake-ups as
(run time, queue id) pairs. -/
structure ThrottledTimeDomain where
  now : Int
  wakeups : List (Int × Nat)
deriving Repr, DecidableEq

/-- Modelled from the spec: `TimeDomain::NextScheduledRunTime` for the
throttled domain. -/
def ThrottledTimeDomain.NextScheduledRunTime (d : ThrottledTimeDomain) :
    Option Int :=
  (d.wakeups.map (fun p => p.1)).min?

/-- Modelled from the spec: `TimeDomain::AdvanceTo`. -/
def ThrottledTimeDomain.AdvanceTo (d : ThrottledTimeDomain) (t : Int) :
    ThrottledTimeDomain :=
  { d with now := t }

/-- Modelled from the spec: `TimeDomain::ClearExpiredWakeups` drops every
wake-up at or before the domain's current time. -/
def ThrottledTimeDomain.ClearExpiredWakeups (d : ThrottledTimeDomain) :
    ThrottledTimeDomain :=
  { d with wakeups := d.wakeups.filter (fun p => d.now < p.1) }

/-- `ThrottlingHelper` state (throttling_helper.cc): the throttled queues,
the pending-pump marker (`base::TimeTicks`, whose null value is 0), the
throttled time domain, and the absolute fire times of the outstanding posted
pump callbacks (the cancelable `suspend_timers_when_backgrounded_closure_`:
`Cancel()` invalidates every previously posted copy). -/
structure ThrottlingHelper where
  throttledQueues : List Nat
  pendingPumpThrottledTasksRuntime : Int
  timeDomain : ThrottledTimeDomain
  postedPumpTasks : List Int
deriving Repr, DecidableEq

/-- `ThrottlingHelper::MaybeSchedulePumpThrottledTasksLocked`
(throttling_helper.cc): returns unchanged when a pump is already pending at
or before the new throttled run time; otherwise records the new pending run
time, cancels the previously posted callback and posts a new one with delay
`pending - now` (absolute fire time `pending`). -/
def ThrottlingHelper.MaybeSchedulePumpThrottledTasksLocked
    (h : ThrottlingHelper) (now unthrottledRuntime : Int) : ThrottlingHelper :=
  let throttledRuntime := ThrottledRunTime unthrottledRuntime
  if ¬h.pendingPumpThrottledTasksRuntime = 0 ∧
      h.pendingPumpThrottledTasksRuntime ≤ throttledRuntime then h
  else
    { h with
      pendingPumpThrottledTasksRuntime := throttledRuntime,
      postedPumpTasks := [now + (throttledRuntime - now)] }

/-- `ThrottlingHelper::OnTimeDomainHasImmediateWork` (throttling_helper.cc),
on the owning thread (the cross-thread repost is elided: the model is
single-threaded). -/
def ThrottlingHelper.OnTimeDomainHasImmediateWork (h : ThrottlingHelper)
    (now : Int) : ThrottlingHelper :=
  h.MaybeSchedulePumpThrottledTasksLocked now now

/-- `ThrottlingHelper::OnTimeDomainHasDelayedWork` (throttling_helper.cc);
`DCHECK(has_delayed_task)` is modelled as `none` on failure. -/
def ThrottlingHelper.OnTimeDomainHasDelayedWork (h : ThrottlingHelper)
    (now : Int) : Option ThrottlingHelper :=
  match h.timeDomain.NextScheduledRunTime with
  | none => none
  | some next => some (h.MaybeSchedulePumpThrottledTasksLocked now next)

/-- The helper together with the task queues it may mutate. -/
structure ThrottlerState where
  helper : ThrottlingHelper
  queues : List TaskQueue
deriving Repr, DecidableEq

/-- Replace the task queue with the given id. -/
def replaceTaskQueue (queues : List TaskQueue) (qid : Nat) (q' : TaskQueue) :
    List TaskQueue :=
  queues.map (fun q => if q.id = qid then q' else q)

/-- `ThrottlingHelper::Throttle` (throttling_helper.cc):
`DCHECK_NE(task_queue, task_runner_)` rejects the control queue (modelled as
`none`); otherwise inserts the queue into `throttled_queues_`, reassigns it
to the throttled time domain (the migration of its next delayed wake-up is
modelled from the spec, `TaskQueue::SetTimeDomain` not being under src/),
sets MANUAL pump policy, and, when the queue is non-empty, invokes the
immediate-work path when it has pending immediate work and the delayed-work
path otherwise. -/
def Throttle (st : ThrottlerState) (controlQueueId : Nat) (now : Int)
    (qid : Nat) : Option ThrottlerState :=
  if qid = controlQueueId then none
  else
    match st.queues.find? (fun x => x.id = qid) with
    | none => none
    | some q =>
      let q' := { q with
        timeDomain := TimeDomainKind.throttled,
        pumpPolicy := PumpPolicy.MANUAL }
      let helper1 := { st.helper with
        throttledQueues :=
          if qid ∈ st.helper.throttledQueues then st.helper.throttledQueues
          else st.helper.throttledQueues ++ [qid] }
      let helper2 :=
        match queueNextDelayedRuntime q with
        | none => helper1
        | some rt =>
          { helper1 with timeDomain := { helper1.timeDomain with
              wakeups := helper1.timeDomain.wakeups ++ [(rt, qid)] } }
      let st1 : ThrottlerState := ⟨helper2, replaceTaskQueue st.queues qid q'⟩
      if q.IsEmpty then some st1
      else if q.HasPendingImmediateWork then
        some { st1 with helper := st1.helper.OnTimeDomainHasImmediateWork now }
      else
        match st1.helper.OnTimeDomainHasDelayedWork now with
        | none => none
        | some helper' => some { st1 with helper := helper' }

/-- `ThrottlingHelper::Unthrottle` (throttling_helper.cc): erases the queue
from `throttled_queues_` (a no-op when absent), moves it back to the real
time domain (dropping its wake-ups from the throttled domain, the migration
being modelled from the spec) and restores AUTO pump policy. -/
def Unthrottle (st : ThrottlerState) (qid : Nat) : ThrottlerState :=
  ⟨{ st.helper with
      throttledQueues := st.helper.throttledQueues.filter (fun x => x ≠ qid),
      timeDomain := { st.helper.timeDomain with
        wakeups := st.helper.timeDomain.wakeups.filter (fun p => p.2 ≠ qid) } },
    st.queues.map (fun q =>
      if q.id = qid then
        { q with
          timeDomain := TimeDomainKind.realTime,
          pumpPolicy := PumpPolicy.AUTO }
      else q)⟩

/-- `ThrottlingHelper::PumpThrottledTasks` (throttling_helper.cc): clears the
pending-pump marker (the fired posted callback has been consumed by the
event loop), advances the throttled domain to `now`, pumps every non-empty
throttled queue, clears expired wake-ups, and re-runs the coalesced
scheduling when a next delayed run time remains. -/
def PumpThrottledTasks (st : ThrottlerState) (now : Int) : ThrottlerState :=
  let h0 := { st.helper with
    pendingPumpThrottledTasksRuntime := 0,
    postedPumpTasks := [] }
  let h1 := { h0 with timeDomain := h0.timeDomain.AdvanceTo now }
  let queues' := st.queues.map (fun q =>
    if q.id ∈ st.helper.throttledQueues ∧ q.IsEmpty = false then q.PumpQueue
    else q)
  let h2 := { h1 with timeDomain := h1.timeDomain.ClearExpiredWakeups }
  match h2.timeDomain.NextScheduledRunTime with
  | none => ⟨h2, queues'⟩
  | some next => ⟨h2.MaybeSchedulePumpThrottledTasksLocked now next, queues'⟩

/-- Concrete throttler state used to witness the pump-cycle theorem: queue 5
is throttled and non-empty, and the throttled domain has one pending wake-up
at 2.3s. -/
def c6State : ThrottlerState :=
  ⟨⟨[5], 0, ⟨0, [(2300000, 9)]⟩, []⟩,
   [⟨5, TimeDomainKind.throttled, PumpPolicy.MANUAL, [42], [(2300000, 9)], []⟩]⟩

/-- Concrete throttler state used to witness the `Throttle` theorem: one
queue (id 3) with pending immediate work, nothing throttled yet, control
queue id 99. -/
def c7State : ThrottlerState :=
  ⟨⟨[], 0, ⟨0, []⟩, []⟩,
   [⟨3, TimeDomainKind.realTime, PumpPolicy.AUTO, [11], [], []⟩]⟩

/-- The state `Throttle c7State 99 0 3` produces: queue 3 throttled with
MANUAL pump, and a pump scheduled at the 1s boundary. -/
def c7Result : ThrottlerState :=
  ⟨⟨[3], 1000000, ⟨0, []⟩, [1000000]⟩,
   [⟨3, TimeDomainKind.throttled, PumpPolicy.MANUAL, [11], [], []⟩]⟩

/-- Concrete state used to witness the `Unthrottle` theorem: queue 2 is
configured as throttled but absent from `throttled_queues_`, exercising the
unconditional erase. -/
def c10State : ThrottlerState :=
  ⟨⟨[], 5, ⟨0, []⟩, []⟩,
   [⟨2, TimeDomainKind.throttled, PumpPolicy.MANUAL, [7], [], []⟩]⟩

-- ===================== THEOREMS =====================

theorem mem_insertPair {p q : Nat × Nat} {l : List (Nat × Nat)} :
    p ∈ insertPair q l ↔ p = q ∨ p ∈ l := by
  induction l with
  | nil => simp [insertPair]
  | cons r rest ih =>
    simp only [insertPair]
    by_cases h : q.1 ≤ r.1 <;> simp [h, ih] <;> tauto

theorem insertPair_pairwise {q : Nat × Nat} {l : List (Nat × Nat)}
    (hs : l.Pairwise (fun a b => a.1 < b.1)) (hfresh : ∀ r ∈ l, q.1 ≠ r.1) :
    (insertPair q l).Pairwise (fun a b => a.1 < b.1) := by
  induction l with
  | nil => simp [insertPair]
  | cons r rest ih =>
    simp only [insertPair]
    rcases List.pairwise_cons.mp hs with ⟨hr, hrest⟩
    by_cases h : q.1 ≤ r.1
    · rw [if_pos h]
      have hqr : q.1 < r.1 := lt_of_le_of_ne h (hfresh r (by simp))
      refine List.pairwise_cons.mpr ⟨?_, hs⟩
      intro b hb
      rcases List.mem_cons.mp hb with hbr | hbrest
      · exact hbr ▸ hqr
      · exact lt_trans hqr (hr b hbrest)
    · rw [if_neg h]
      push_neg at h
      refine List.pairwise_cons.mpr
        ⟨?_, ih hrest (fun r hr' => hfresh r (by simp [hr']))⟩
      intro b hb
      rcases mem_insertPair.mp hb with hbq | hbrest
      · exact hbq ▸ h
      · exact hr b hbrest

theorem eraseKey_sublist (k : Nat) (l : List (Nat × Nat)) :
    (eraseKey k l).Sublist l := by
  induction l with
  | nil => simp [eraseKey]
  | cons r rest ih =>
    simp only [eraseKey]
    by_cases h : r.1 = k
    · simp [h]
    · simpa [h] using ih.cons₂ r

theorem mem_eraseKey_of_mem {p : Nat × Nat} {k : Nat} {l : List (Nat × Nat)}
    (hmem : p ∈ l) (hne : p.1 ≠ k) : p ∈ eraseKey k l := by
  induction l with
  | nil => simp at hmem
  | cons r rest ih =>
    simp only [eraseKey]
    by_cases h : r.1 = k
    · rw [if_pos h]
      rcases List.mem_cons.mp hmem with hp | hp
      · exact absurd (hp ▸ h) hne
      · exact hp
    · rw [if_neg h]
      rcases List.mem_cons.mp hmem with hp | hp
      · exact List.mem_cons.mpr (Or.inl hp)
      · exact List.mem_cons.mpr (Or.inr (ih hp))

theorem not_mem_eraseKey {k : Nat} {v : Nat} {l : List (Nat × Nat)}
    (hnodup : (l.map (fun p => p.1)).Nodup) : (k, v) ∉ eraseKey k l := by
  induction l with
  | nil => simp [eraseKey]
  | cons r rest ih =>
    simp only [List.map_cons, List.nodup_cons] at hnodup
    simp only [eraseKey]
    by_cases h : r.1 = k
    · rw [if_pos h]
      intro hmem
      exact hnodup.1 (h ▸ List.mem_map.mpr ⟨(k, v), hmem, rfl⟩)
    · rw [if_neg h]
      intro hmem
      rcases List.mem_cons.mp hmem with heq | hmem'
      · exact h (by rw [← heq])
      · exact ih hnodup.2 hmem'

theorem lookupKey_mem {k v : Nat} {l : List (Nat × Nat)}
    (h : lookupKey k l = some v) : (k, v) ∈ l := by
  induction l with
  | nil => simp [lookupKey] at h
  | cons r rest ih =>
    simp only [lookupKey] at h
    by_cases hr : r.1 = k
    · rw [if_pos hr] at h
      have hv : r.2 = v := Option.some.injEq _ _ ▸ h
      exact List.mem_cons.mpr (Or.inl (by rw [← hr, ← hv]))
    · rw [if_neg hr] at h
      exact List.mem_cons.mpr (Or.inr (ih h))

theorem lookupKey_eq_some {k v : Nat} {l : List (Nat × Nat)}
    (hmem : (k, v) ∈ l) : ∃ v', lookupKey k l = some v' := by
  induction l with
  | nil => simp at hmem
  | cons r rest ih =>
    simp only [lookupKey]
    by_cases hr : r.1 = k
    · exact ⟨r.2, by simp [hr]⟩
    · rcases List.mem_cons.mp hmem with hp | hp
      · exact absurd (by rw [← hp]) hr
      · simpa [hr] using ih hp

theorem updateAt_length (i : Nat) (f : α → α) (l : List α) :
    (updateAt i f l).length = l.length := by
  induction l generalizing i with
  | nil => cases i <;> rfl
  | cons x xs ih =>
    match i with
    | 0 => rfl
    | i + 1 => simp [updateAt, ih]

theorem getD_updateAt_eq (i : Nat) (f : α → α) (l : List α) (d : α)
    (h : i < l.length) : (updateAt i f l).getD i d = f (l.getD i d) := by
  induction l generalizing i with
  | nil => simp at h
  | cons x xs ih =>
    match i with
    | 0 => rfl
    | i + 1 =>
      simp only [updateAt, List.getD_cons_succ]
      exact ih i (by simpa using h)

theorem getD_updateAt_ne (i j : Nat) (f : α → α) (l : List α) (d : α)
    (h : i ≠ j) : (updateAt i f l).getD j d = l.getD j d := by
  induction l generalizing i j with
  | nil => cases i <;> rfl
  | cons x xs ih =>
    match i with
    | 0 =>
      match j with
      | 0 => exact absurd rfl h
      | j + 1 => rfl
    | i + 1 =>
      match j with
      | 0 => rfl
      | j + 1 =>
        simp only [updateAt, List.getD_cons_succ]
        exact ih i j (by omega)

theorem getD_replicate_nil (n s : Nat) :
    (List.replicate n ([] : List (Nat × Nat))).getD s [] = [] := by
  induction n generalizing s with
  | zero => rfl
  | succ n ih =>
    match s with
    | 0 => rfl
    | s + 1 => simpa [List.replicate_succ] using ih s

theorem head_le_of_pairwise {l : List (Nat × Nat)} {p q : Nat × Nat}
    (hs : l.Pairwise (fun a b => a.1 < b.1)) (hhead : l.head? = some p)
    (hmem : q ∈ l) : p.1 ≤ q.1 := by
  match l with
  | [] => simp at hhead
  | r :: rest =>
    simp only [List.head?_cons, Option.some.injEq] at hhead
    subst hhead
    rcases List.mem_cons.mp hmem with hq | hq
    · exact le_of_eq (by rw [hq])
    · exact le_of_lt ((List.pairwise_cons.mp hs).1 q hq)

theorem head_le_of_sorted_tasks {l : List Nat} {h x : Nat}
    (hs : l.Pairwise (· < ·)) (hhead : l.head? = some h) (hmem : x ∈ l) :
    h ≤ x := by
  match l with
  | [] => simp at hhead
  | a :: rest =>
    simp only [List.head?_cons, Option.some.injEq] at hhead
    subst hhead
    rcases List.mem_cons.mp hmem with hx | hx
    · exact le_of_eq hx.symm
    · exact le_of_lt ((List.pairwise_cons.mp hs).1 x hx)

theorem id_unique {queues : List WorkQueue}
    (hnodup : (queues.map (fun q => q.id)).Nodup) {wq1 wq2 : WorkQueue}
    (h1 : wq1 ∈ queues) (h2 : wq2 ∈ queues) (hid : wq1.id = wq2.id) :
    wq1 = wq2 :=
  List.inj_on_of_nodup_map hnodup h1 h2 hid

theorem head?_mem {α : Type _} {l : List α} {a : α} (h : l.head? = some a) :
    a ∈ l := by
  match l with
  | [] => simp at h
  | x :: xs =>
    simp only [List.head?_cons, Option.some.injEq] at h
    exact h ▸ List.mem_cons_self x xs

theorem keys_nodup_of_pairwise {l : List (Nat × Nat)}
    (h : l.Pairwise (fun a b => a.1 < b.1)) :
    (l.map (fun p => p.1)).Nodup := by
  rw [List.Nodup, List.pairwise_map]
  exact h.imp (fun hab => Nat.ne_of_lt hab)

theorem replaceQueue_map_id {queues : List WorkQueue} {qid : Nat}
    {wq' : WorkQueue} (hid : wq'.id = qid) :
    (replaceQueue queues qid wq').map (fun q => q.id) =
      queues.map (fun q => q.id) := by
  simp only [replaceQueue, List.map_map]
  apply List.map_congr_left
  intro q _
  by_cases h : q.id = qid
  · simp [Function.comp, h, hid]
  · simp [Function.comp, h]

theorem mem_replaceQueue_elim {queues : List WorkQueue} {qid : Nat}
    {wq' x : WorkQueue} (hx : x ∈ replaceQueue queues qid wq') :
    x = wq' ∨ (x ∈ queues ∧ x.id ≠ qid) := by
  rcases List.mem_map.mp hx with ⟨q, hq, hqx⟩
  by_cases h : q.id = qid
  · left
    rw [← hqx]
    simp [h]
  · right
    rw [if_neg h] at hqx
    exact ⟨hqx ▸ hq, hqx ▸ h⟩

theorem replaceQueue_mem_self {queues : List WorkQueue} {qid : Nat}
    {wq wq' : WorkQueue} (hq : wq ∈ queues) (hid : wq.id = qid) :
    wq' ∈ replaceQueue queues qid wq' :=
  List.mem_map.mpr ⟨wq, hq, by simp [hid]⟩

theorem replaceQueue_mem_other {queues : List WorkQueue} {qid : Nat}
    {wq' x : WorkQueue} (hq : x ∈ queues) (hne : x.id ≠ qid) :
    x ∈ replaceQueue queues qid wq' :=
  List.mem_map.mpr ⟨x, hq, by simp [hne]⟩

theorem frontEntryIn_replace_iff {queues : List WorkQueue} {qid : Nat}
    {wq wq' : WorkQueue}
    (hnodup : (queues.map (fun q => q.id)).Nodup)
    (hwq : wq ∈ queues) (hid : wq.id = qid) (hid' : wq'.id = qid)
    (s eo qid0 : Nat) :
    frontEntryIn (replaceQueue queues qid wq') s eo qid0 ↔
      (qid0 = qid ∧ wq'.workQueueSetIndex = s ∧ wq'.tasks.head? = some eo) ∨
      (qid0 ≠ qid ∧ frontEntryIn queues s eo qid0) := by
  constructor
  · rintro ⟨x, hx, hxid, hxs, hxh⟩
    rcases mem_replaceQueue_elim hx with hxeq | ⟨hxq, hxne⟩
    · exact Or.inl ⟨by rw [← hxid, hxeq, hid'], by rw [← hxeq]; exact hxs,
        by rw [← hxeq]; exact hxh⟩
    · exact Or.inr ⟨by rw [← hxid]; exact hxne, x, hxq, hxid, hxs, hxh⟩
  · rintro (⟨h0, hs, hh⟩ | ⟨h0, x, hx, hxid, hxs, hxh⟩)
    · exact ⟨wq', replaceQueue_mem_self hwq hid, by rw [hid', h0], hs, hh⟩
    · exact ⟨x, replaceQueue_mem_other hx (by rw [hxid]; exact h0), hxid, hxs, hxh⟩

theorem frontEntryIn_self_iff {queues : List WorkQueue} {qid : Nat}
    {wq : WorkQueue}
    (hnodup : (queues.map (fun q => q.id)).Nodup)
    (hwq : wq ∈ queues) (hid : wq.id = qid) (s eo : Nat) :
    frontEntryIn queues s eo qid ↔
      (wq.workQueueSetIndex = s ∧ wq.tasks.head? = some eo) := by
  constructor
  · rintro ⟨x, hx, hxid, hxs, hxh⟩
    have : x = wq := id_unique hnodup hx hwq (by rw [hxid, hid])
    exact ⟨this ▸ hxs, this ▸ hxh⟩
  · rintro ⟨hs, hh⟩
    exact ⟨wq, hwq, hid, hs, hh⟩

theorem isEmpty_false_ne_nil {l : List Nat} (h : l.isEmpty = false) :
    l ≠ [] := by
  cases l with
  | nil => simp at h
  | cons a as => simp

theorem head?_append_left {l l2 : List Nat} (h : l ≠ []) :
    (l ++ l2).head? = l.head? := by
  cases l with
  | nil => exact absurd rfl h
  | cons a as => rfl

/-- Replacing one queue's task list preserves the scheduler invariant,
provided the new task list is sorted, bounded by the (possibly advanced)
counter, disjoint from every other queue, and the new sets bookkeeping is
sorted and matches the fronts of the new queues. -/
theorem schedInv_replace_aux {st : SchedulerState} {qid : Nat} {wq : WorkQueue}
    (hinv : SchedInv st) (hmem : wq ∈ st.queues) (hid : wq.id = qid)
    (newTasks : List Nat) (n' : Nat) (sets' : WorkQueueSets)
    (hsortedT : newTasks.Pairwise (· < ·))
    (hltT : ∀ eo ∈ newTasks, eo < n')
    (hltOld : ∀ x ∈ st.queues, ∀ eo ∈ x.tasks, eo < n')
    (hdisj : ∀ x ∈ st.queues, x.id ≠ qid → ∀ eo ∈ newTasks, eo ∉ x.tasks)
    (hlen : sets'.enqueueOrderToWorkQueueMaps.length
      = st.sets.enqueueOrderToWorkQueueMaps.length)
    (hsorted : ∀ s, (sets'.setMap s).Pairwise (fun a b => a.1 < b.1))
    (hcontent : ∀ s, s < sets'.enqueueOrderToWorkQueueMaps.length →
      ∀ eo qid0, (eo, qid0) ∈ sets'.setMap s ↔
        frontEntryIn (replaceQueue st.queues qid { wq with tasks := newTasks })
          s eo qid0) :
    SchedInv ⟨replaceQueue st.queues qid { wq with tasks := newTasks },
      sets', n'⟩ := by
  have hid' : (WorkQueue.mk wq.id wq.workQueueSetIndex newTasks).id = qid := hid
  refine ⟨?_, ?_, ?_, ?_, ?_, hsorted, hcontent⟩
  · show ((replaceQueue st.queues qid _).map (fun q => q.id)).Nodup
    rw [replaceQueue_map_id hid']
    exact hinv.nodupIds
  · intro x hx
    show x.workQueueSetIndex < sets'.enqueueOrderToWorkQueueMaps.length
    rw [hlen]
    rcases mem_replaceQueue_elim hx with rfl | ⟨hxq, _⟩
    · exact hinv.setIndexLt wq hmem
    · exact hinv.setIndexLt x hxq
  · intro x hx
    rcases mem_replaceQueue_elim hx with rfl | ⟨hxq, _⟩
    · exact hsortedT
    · exact hinv.tasksSorted x hxq
  · intro x hx eo heo
    rcases mem_replaceQueue_elim hx with rfl | ⟨hxq, _⟩
    · exact hltT eo heo
    · exact hltOld x hxq eo heo
  · intro x1 hx1 x2 hx2 hne12 eo heo
    rcases mem_replaceQueue_elim hx1 with rfl | ⟨hx1q, hx1ne⟩
    · rcases mem_replaceQueue_elim hx2 with rfl | ⟨hx2q, hx2ne⟩
      · exact absurd rfl hne12
      · exact hdisj x2 hx2q (fun hcon => hne12 (by rw [hid', hcon])) eo heo
    · rcases mem_replaceQueue_elim hx2 with rfl | ⟨hx2q, hx2ne⟩
      · intro hcon
        exact hdisj x1 hx1q hx1ne eo hcon heo
      · exact hinv.tasksDisjoint x1 hx1q x2 hx2q hne12 eo heo

/-- The next enqueue order is fresh for every set map key. -/
theorem fresh_key {st : SchedulerState} (hinv : SchedInv st) (s : Nat)
    (hs : s < st.sets.enqueueOrderToWorkQueueMaps.length) :
    ∀ r ∈ st.sets.setMap s, st.nextEnqueueOrder ≠ r.1 := by
  intro r hr
  have hfe := (hinv.content s hs r.1 r.2).mp (by rw [Prod.mk.eta]; exact hr)
  obtain ⟨x, hx, _, _, hxh⟩ := hfe
  have hlt := hinv.tasksLt x hx r.1 (head?_mem hxh)
  exact Nat.ne_of_gt hlt

theorem pushContent_nonempty {st : SchedulerState} {qid : Nat} {wq : WorkQueue}
    (hinv : SchedInv st) (hmem : wq ∈ st.queues) (hid : wq.id = qid)
    (hne : wq.tasks ≠ []) (s : Nat)
    (hs : s < st.sets.enqueueOrderToWorkQueueMaps.length) (eo qid0 : Nat) :
    (eo, qid0) ∈ st.sets.setMap s ↔
      frontEntryIn (replaceQueue st.queues qid
        { wq with tasks := wq.tasks ++ [st.nextEnqueueOrder] }) s eo qid0 := by
  have hid' : (WorkQueue.mk wq.id wq.workQueueSetIndex
      (wq.tasks ++ [st.nextEnqueueOrder])).id = qid := hid
  rw [frontEntryIn_replace_iff hinv.nodupIds hmem hid hid' s eo qid0,
    hinv.content s hs eo qid0]
  have hhead : (wq.tasks ++ [st.nextEnqueueOrder]).head? = wq.tasks.head? :=
    head?_append_left hne
  constructor
  · intro hfe
    by_cases hq0 : qid0 = qid
    · subst hq0
      obtain ⟨hsind, hh⟩ :=
        (frontEntryIn_self_iff hinv.nodupIds hmem hid s eo).mp hfe
      exact Or.inl ⟨rfl, hsind, by rw [hhead]; exact hh⟩
    · exact Or.inr ⟨hq0, hfe⟩
  · rintro (⟨hq0, hsind, hh⟩ | ⟨_, hfe⟩)
    · subst hq0
      exact (frontEntryIn_self_iff hinv.nodupIds hmem hid s eo).mpr
        ⟨hsind, by rw [← hhead]; exact hh⟩
    · exact hfe

theorem pushContent_empty {st : SchedulerState} {qid : Nat} {wq : WorkQueue}
    (hinv : SchedInv st) (hmem : wq ∈ st.queues) (hid : wq.id = qid)
    (hnil : wq.tasks = []) (s : Nat)
    (hs : s <
      (WorkQueueSets.mk (updateAt wq.workQueueSetIndex
        (insertPair (st.nextEnqueueOrder, wq.id))
        st.sets.enqueueOrderToWorkQueueMaps)).enqueueOrderToWorkQueueMaps.length)
    (eo qid0 : Nat) :
    (eo, qid0) ∈ (WorkQueueSets.mk (updateAt wq.workQueueSetIndex
        (insertPair (st.nextEnqueueOrder, wq.id))
        st.sets.enqueueOrderToWorkQueueMaps)).setMap s ↔
      frontEntryIn (replaceQueue st.queues qid
        { wq with tasks := wq.tasks ++ [st.nextEnqueueOrder] }) s eo qid0 := by
  have hid' : (WorkQueue.mk wq.id wq.workQueueSetIndex
      (wq.tasks ++ [st.nextEnqueueOrder])).id = qid := hid
  have hs' : s < st.sets.enqueueOrderToWorkQueueMaps.length := by
    simpa [updateAt_length] using hs
  have hslt : wq.workQueueSetIndex < st.sets.enqueueOrderToWorkQueueMaps.length :=
    hinv.setIndexLt wq hmem
  have hhead' : (wq.tasks ++ [st.nextEnqueueOrder]).head?
      = some st.nextEnqueueOrder := by rw [hnil]; rfl
  have hwqfront : wq.tasks.head? = none := by rw [hnil]; rfl
  rw [frontEntryIn_replace_iff hinv.nodupIds hmem hid hid' s eo qid0]
  by_cases hcase : s = wq.workQueueSetIndex
  · subst hcase
    have hmap : (WorkQueueSets.mk (updateAt wq.workQueueSetIndex
        (insertPair (st.nextEnqueueOrder, wq.id))
        st.sets.enqueueOrderToWorkQueueMaps)).setMap wq.workQueueSetIndex
        = insertPair (st.nextEnqueueOrder, wq.id)
            (st.sets.setMap wq.workQueueSetIndex) := by
      show (updateAt _ _ _).getD _ [] = _
      rw [getD_updateAt_eq _ _ _ [] hslt]
      rfl
    rw [hmap]
    rw [mem_insertPair]
    constructor
    · rintro (heq | hmemold)
      · rw [Prod.mk.injEq] at heq
        exact Or.inl ⟨by rw [heq.2, hid], rfl, by rw [hhead', heq.1]⟩
      · have hfe := (hinv.content wq.workQueueSetIndex hs' eo qid0).mp hmemold
        by_cases hq0 : qid0 = qid
        · exfalso
          obtain ⟨hsind, hh⟩ :=
            (frontEntryIn_self_iff hinv.nodupIds hmem hid
              wq.workQueueSetIndex eo).mp (hq0 ▸ hfe)
          rw [hwqfront] at hh
          exact Option.noConfusion hh
        · exact Or.inr ⟨hq0, hfe⟩
    · rintro (⟨hq0, _, hh⟩ | ⟨hq0, hfe⟩)
      · rw [hhead'] at hh
        have heo : st.nextEnqueueOrder = eo := Option.some.injEq _ _ ▸ hh
        exact Or.inl (by rw [← heo, hq0, hid])
      · exact Or.inr ((hinv.content wq.workQueueSetIndex hs' eo qid0).mpr hfe)
  · have hmap : (WorkQueueSets.mk (updateAt wq.workQueueSetIndex
        (insertPair (st.nextEnqueueOrder, wq.id))
        st.sets.enqueueOrderToWorkQueueMaps)).setMap s = st.sets.setMap s := by
      show (updateAt _ _ _).getD s [] = _
      rw [getD_updateAt_ne _ s _ _ [] (fun hx => hcase hx.symm)]
      rfl
    rw [hmap, hinv.content s hs' eo qid0]
    constructor
    · intro hfe
      by_cases hq0 : qid0 = qid
      · exfalso
        obtain ⟨x, hx, hxid, hxs, hxh⟩ := hfe
        have hxwq : x = wq :=
          id_unique hinv.nodupIds hx hmem (by rw [hxid, hq0, hid])
        rw [hxwq, hwqfront] at hxh
        exact Option.noConfusion hxh
      · exact Or.inr ⟨hq0, hfe⟩
    · rintro (⟨hq0, hsind, hh⟩ | ⟨_, hfe⟩)
      · exact absurd hsind.symm hcase
      · exact hfe

/-- `pushTask` preserves the scheduler invariant. -/
theorem schedInv_pushTask {st st' : SchedulerState} {qid : Nat}
    (hinv : SchedInv st) (h : pushTask st qid = some st') : SchedInv st' := by
  unfold pushTask at h
  cases hfind : st.queues.find? (fun wq => wq.id = qid) with
  | none => rw [hfind] at h; simp at h
  | some wq =>
    rw [hfind] at h
    have hmem : wq ∈ st.queues := List.mem_of_find?_eq_some hfind
    have hid : wq.id = qid := by simpa using List.find?_some hfind
    have hslt := hinv.setIndexLt wq hmem
    simp only at h
    by_cases hemp : wq.tasks.isEmpty
    · have hnil : wq.tasks = [] := by
        cases htl : wq.tasks with
        | nil => rfl
        | cons a as => rw [htl] at hemp; simp at hemp
      have hfront : ({ wq with tasks := wq.tasks ++ [st.nextEnqueueOrder] }
          : WorkQueue).GetFrontTaskEnqueueOrder = some st.nextEnqueueOrder := by
        show (wq.tasks ++ [st.nextEnqueueOrder]).head? = _
        rw [hnil]
        rfl
      rw [if_pos hemp] at h
      rw [WorkQueueSets.OnPushQueue] at h
      rw [hfront] at h
      simp only at h
      rw [if_pos hslt] at h
      rw [Option.some.injEq] at h
      rw [← h]
      refine schedInv_replace_aux hinv hmem hid (wq.tasks ++ [st.nextEnqueueOrder])
        (st.nextEnqueueOrder + 1) _ ?_ ?_ ?_ ?_ ?_ ?_ ?_
      · rw [hnil]
        simp
      · intro eo heo
        rw [hnil] at heo
        simp at heo
        omega
      · intro x hx eo heo
        exact Nat.lt_succ_of_lt (hinv.tasksLt x hx eo heo)
      · intro x hx hxne eo heo
        rw [hnil] at heo
        simp at heo
        intro hcon
        have hlt2 := hinv.tasksLt x hx eo hcon
        rw [heo] at hlt2
        exact Nat.lt_irrefl _ hlt2
      · exact updateAt_length _ _ _
      · intro s
        by_cases hcase : s = wq.workQueueSetIndex
        · subst hcase
          have hmap : (WorkQueueSets.mk (updateAt wq.workQueueSetIndex
              (insertPair (st.nextEnqueueOrder, wq.id))
              st.sets.enqueueOrderToWorkQueueMaps)).setMap wq.workQueueSetIndex
              = insertPair (st.nextEnqueueOrder, wq.id)
                  (st.sets.setMap wq.workQueueSetIndex) := by
            show (updateAt _ _ _).getD _ [] = _
            rw [getD_updateAt_eq _ _ _ [] hslt]
            rfl
          rw [hmap]
          exact insertPair_pairwise (hinv.mapsSorted _)
            (fresh_key hinv _ hslt)
        · have hmap : (WorkQueueSets.mk (updateAt wq.workQueueSetIndex
              (insertPair (st.nextEnqueueOrder, wq.id))
              st.sets.enqueueOrderToWorkQueueMaps)).setMap s
              = st.sets.setMap s := by
            show (updateAt _ _ _).getD s [] = _
            rw [getD_updateAt_ne _ s _ _ [] (fun hx => hcase hx.symm)]
            rfl
          rw [hmap]
          exact hinv.mapsSorted s
      · exact fun s hs eo qid0 => pushContent_empty hinv hmem hid hnil s hs eo qid0
    · have hne : wq.tasks ≠ [] := by
        cases htl : wq.tasks with
        | nil => rw [htl] at hemp; simp at hemp
        | cons a as => simp
      rw [if_neg hemp] at h
      rw [Option.some.injEq] at h
      rw [← h]
      refine schedInv_replace_aux hinv hmem hid (wq.tasks ++ [st.nextEnqueueOrder])
        (st.nextEnqueueOrder + 1) st.sets ?_ ?_ ?_ ?_ rfl hinv.mapsSorted ?_
      · rw [List.pairwise_append]
        refine ⟨hinv.tasksSorted wq hmem, by simp, ?_⟩
        intro a ha b hb
        simp only [List.mem_singleton] at hb
        rw [hb]
        exact hinv.tasksLt wq hmem a ha
      · intro eo heo
        rcases List.mem_append.mp heo with hold | hnew
        · exact Nat.lt_succ_of_lt (hinv.tasksLt wq hmem eo hold)
        · simp only [List.mem_singleton] at hnew
          omega
      · intro x hx eo heo
        exact Nat.lt_succ_of_lt (hinv.tasksLt x hx eo heo)
      · intro x hx hxne eo heo
        rcases List.mem_append.mp heo with hold | hnew
        · exact hinv.tasksDisjoint wq hmem x hx
            (fun hcon => hxne (by rw [← hcon, hid])) eo hold
        · simp only [List.mem_singleton] at hnew
          intro hcon
          have hlt2 := hinv.tasksLt x hx eo hcon
          rw [hnew] at hlt2
          exact Nat.lt_irrefl _ hlt2
      · exact fun s hs eo qid0 => pushContent_nonempty hinv hmem hid hne s hs eo qid0

theorem eq_cons_of_head? {α : Type _} {l : List α} {a : α}
    (h : l.head? = some a) : l = a :: l.tail := by
  match l with
  | [] => simp at h
  | x :: xs =>
    simp only [List.head?_cons, Option.some.injEq] at h
    rw [h]
    rfl

/-- The minimum entry of a set map names its front task. -/
theorem pop_head_entry {st : SchedulerState} {qid : Nat} {wq : WorkQueue}
    {t0 : Nat} {rest : List Nat} {p : Nat × Nat}
    (hinv : SchedInv st) (hmem : wq ∈ st.queues) (hid : wq.id = qid)
    (htasks : wq.tasks = t0 :: rest)
    (hp : (st.sets.setMap wq.workQueueSetIndex).head? = some p)
    (hp2 : p.2 = wq.id) : p.1 = t0 := by
  have hpm : p ∈ st.sets.setMap wq.workQueueSetIndex := head?_mem hp
  have hfe := (hinv.content _ (hinv.setIndexLt wq hmem) p.1 p.2).mp
    (by rw [Prod.mk.eta]; exact hpm)
  obtain ⟨x, hx, hxid, hxs, hxh⟩ := hfe
  have hxwq : x = wq := id_unique hinv.nodupIds hx hmem (by rw [hxid, hp2])
  rw [hxwq, htasks] at hxh
  simp only [List.head?_cons, Option.some.injEq] at hxh
  exact hxh.symm

/-- No entry of the tail of a set map belongs to the queue holding the
minimum entry. -/
theorem pop_tail_ne_id {st : SchedulerState} {qid : Nat} {wq : WorkQueue}
    {t0 : Nat} {rest : List Nat} {p : Nat × Nat}
    (hinv : SchedInv st) (hmem : wq ∈ st.queues) (hid : wq.id = qid)
    (htasks : wq.tasks = t0 :: rest)
    (hp : (st.sets.setMap wq.workQueueSetIndex).head? = some p)
    (hp2 : p.2 = wq.id) :
    ∀ r ∈ (st.sets.setMap wq.workQueueSetIndex).tail, r.2 ≠ wq.id := by
  intro r hr hcon
  have hrm : r ∈ st.sets.setMap wq.workQueueSetIndex :=
    (List.tail_sublist _).subset hr
  have hfe := (hinv.content _ (hinv.setIndexLt wq hmem) r.1 r.2).mp
    (by rw [Prod.mk.eta]; exact hrm)
  obtain ⟨x, hx, hxid, hxs, hxh⟩ := hfe
  have hxwq : x = wq := id_unique hinv.nodupIds hx hmem (by rw [hxid, hcon])
  rw [hxwq, htasks] at hxh
  simp only [List.head?_cons, Option.some.injEq] at hxh
  have hps := hinv.mapsSorted wq.workQueueSetIndex
  rw [eq_cons_of_head? hp] at hps
  have hlt := (List.pairwise_cons.mp hps).1 r hr
  have hpt : p.1 = t0 := pop_head_entry hinv hmem hid htasks hp hp2
  rw [hpt, ← hxh] at hlt
  exact Nat.lt_irrefl _ hlt

/-- The remaining front task of a popped queue is fresh for the tail of the
set map. -/
theorem pop_tail_fresh {st : SchedulerState} {qid : Nat} {wq : WorkQueue}
    {t0 : Nat} {rest : List Nat} {p : Nat × Nat}
    (hinv : SchedInv st) (hmem : wq ∈ st.queues) (hid : wq.id = qid)
    (htasks : wq.tasks = t0 :: rest)
    (hp : (st.sets.setMap wq.workQueueSetIndex).head? = some p)
    (hp2 : p.2 = wq.id) {eoNew : Nat} (heoNew : eoNew ∈ rest) :
    ∀ r ∈ (st.sets.setMap wq.workQueueSetIndex).tail, eoNew ≠ r.1 := by
  intro r hr hcon
  have hrne := pop_tail_ne_id hinv hmem hid htasks hp hp2 r hr
  have hrm : r ∈ st.sets.setMap wq.workQueueSetIndex :=
    (List.tail_sublist _).subset hr
  have hfe := (hinv.content _ (hinv.setIndexLt wq hmem) r.1 r.2).mp
    (by rw [Prod.mk.eta]; exact hrm)
  obtain ⟨x, hx, hxid, hxs, hxh⟩ := hfe
  have hwqtask : eoNew ∈ wq.tasks := by
    rw [htasks]
    exact List.mem_cons.mpr (Or.inr heoNew)
  have hnotin := hinv.tasksDisjoint wq hmem x hx
    (fun hcon2 => hrne (by rw [← hxid, ← hcon2])) eoNew hwqtask
  exact hnotin (hcon ▸ head?_mem hxh)

/-- Membership of the rebuilt set map after a pop. -/
theorem pop_newMap_mem {wq : WorkQueue} {rest : List Nat}
    {tl : List (Nat × Nat)} (eo qid0 : Nat) :
    ((eo, qid0) ∈ (match rest.head? with
      | none => tl
      | some eoNew => insertPair (eoNew, wq.id) tl)) ↔
      ((rest.head? = some eo ∧ qid0 = wq.id) ∨ (eo, qid0) ∈ tl) := by
  cases hrest : rest.head? with
  | none =>
    simp only
    constructor
    · exact fun h => Or.inr h
    · rintro (⟨hh, _⟩ | h)
      · exact Option.noConfusion hh
      · exact h
  | some eoNew =>
    simp only [mem_insertPair, Prod.mk.injEq]
    constructor
    · rintro (⟨heq1, heq2⟩ | h)
      · exact Or.inl ⟨by rw [heq1], heq2⟩
      · exact Or.inr h
    · rintro (⟨hh, heq2⟩ | h)
      · refine Or.inl ⟨?_, heq2⟩
        injection hh with h2
        rw [h2]
      · exact Or.inr h

/-- Membership of the tail of a set map after removing the minimum entry. -/
theorem pop_tail_mem {st : SchedulerState} {qid : Nat} {wq : WorkQueue}
    {t0 : Nat} {rest : List Nat} {p : Nat × Nat}
    (hinv : SchedInv st) (hmem : wq ∈ st.queues) (hid : wq.id = qid)
    (htasks : wq.tasks = t0 :: rest)
    (hp : (st.sets.setMap wq.workQueueSetIndex).head? = some p)
    (hp2 : p.2 = wq.id) (eo qid0 : Nat) :
    (eo, qid0) ∈ (st.sets.setMap wq.workQueueSetIndex).tail ↔
      (qid0 ≠ qid ∧ frontEntryIn st.queues wq.workQueueSetIndex eo qid0) := by
  constructor
  · intro hr
    have hrne := pop_tail_ne_id hinv hmem hid htasks hp hp2 (eo, qid0) hr
    refine ⟨by rw [← hid]; exact hrne, ?_⟩
    exact (hinv.content _ (hinv.setIndexLt wq hmem) eo qid0).mp
      ((List.tail_sublist _).subset hr)
  · rintro ⟨hq0, hfe⟩
    have hmem2 := (hinv.content _ (hinv.setIndexLt wq hmem) eo qid0).mpr hfe
    rw [eq_cons_of_head? hp] at hmem2
    rcases List.mem_cons.mp hmem2 with heq | htl
    · exfalso
      apply hq0
      rw [← hid, ← hp2, ← heq]
    · exact htl

/-- `popTask` preserves the scheduler invariant. -/
theorem schedInv_popTask {st st' : SchedulerState} {qid : Nat}
    (hinv : SchedInv st) (h : popTask st qid = some st') : SchedInv st' := by
  unfold popTask at h
  cases hfind : st.queues.find? (fun wq => wq.id = qid) with
  | none => rw [hfind] at h; simp at h
  | some wq =>
    rw [hfind] at h
    have hmem : wq ∈ st.queues := List.mem_of_find?_eq_some hfind
    have hid : wq.id = qid := by simpa using List.find?_some hfind
    have hslt := hinv.setIndexLt wq hmem
    simp only at h
    cases htasks : wq.tasks with
    | nil => rw [htasks] at h; simp at h
    | cons t0 rest =>
      rw [htasks] at h
      simp only [WorkQueueSets.OnPopQueue, WorkQueue.GetFrontTaskEnqueueOrder]
        at h
      rw [if_pos hslt] at h
      cases hp : (st.sets.setMap wq.workQueueSetIndex).head? with
      | none => rw [hp] at h; simp at h
      | some p =>
        rw [hp] at h
        simp only at h
        by_cases hp2 : p.2 = wq.id
        swap
        · rw [if_neg hp2] at h
          simp at h
        rw [if_pos hp2] at h
        have hsortedRest : rest.Pairwise (· < ·) := by
          have := hinv.tasksSorted wq hmem
          rw [htasks] at this
          exact (List.pairwise_cons.mp this).2
        have hltRest : ∀ eo ∈ rest, eo < st.nextEnqueueOrder := by
          intro eo heo
          refine hinv.tasksLt wq hmem eo ?_
          rw [htasks]
          exact List.mem_cons.mpr (Or.inr heo)
        have hdisjRest : ∀ x ∈ st.queues, x.id ≠ qid →
            ∀ eo ∈ rest, eo ∉ x.tasks := by
          intro x hx hxne eo heo
          refine hinv.tasksDisjoint wq hmem x hx
            (fun hcon => hxne (by rw [← hcon, hid])) eo ?_
          rw [htasks]
          exact List.mem_cons.mpr (Or.inr heo)
        have htailsorted :
            ((st.sets.setMap wq.workQueueSetIndex).tail).Pairwise
              (fun a b => a.1 < b.1) :=
          List.Pairwise.sublist (List.tail_sublist _) (hinv.mapsSorted _)
        have hid' : (WorkQueue.mk wq.id wq.workQueueSetIndex rest).id = qid :=
          hid
        cases hrest : rest.head? with
        | none =>
          rw [hrest] at h
          simp only [Option.some.injEq] at h
          rw [← h]
          refine schedInv_replace_aux hinv hmem hid rest st.nextEnqueueOrder
            _ hsortedRest hltRest
            (fun x hx eo heo => hinv.tasksLt x hx eo heo) hdisjRest
            (updateAt_length _ _ _) ?_ ?_
          · intro s
            by_cases hcase : s = wq.workQueueSetIndex
            · subst hcase
              have hmap : (WorkQueueSets.mk (updateAt wq.workQueueSetIndex
                  (fun _ => (st.sets.setMap wq.workQueueSetIndex).tail)
                  st.sets.enqueueOrderToWorkQueueMaps)).setMap
                    wq.workQueueSetIndex
                  = (st.sets.setMap wq.workQueueSetIndex).tail := by
                show (updateAt _ _ _).getD _ [] = _
                rw [getD_updateAt_eq _ _ _ [] hslt]
              rw [hmap]
              exact htailsorted
            · have hmap : (WorkQueueSets.mk (updateAt wq.workQueueSetIndex
                  (fun _ => (st.sets.setMap wq.workQueueSetIndex).tail)
                  st.sets.enqueueOrderToWorkQueueMaps)).setMap s
                  = st.sets.setMap s := by
                show (updateAt _ _ _).getD s [] = _
                rw [getD_updateAt_ne _ s _ _ [] (fun hx => hcase hx.symm)]
                rfl
              rw [hmap]
              exact hinv.mapsSorted s
          · intro s hs eo qid0
            rw [frontEntryIn_replace_iff hinv.nodupIds hmem hid hid' s eo qid0]
            by_cases hcase : s = wq.workQueueSetIndex
            · subst hcase
              have hmap : (WorkQueueSets.mk (updateAt wq.workQueueSetIndex
                  (fun _ => (st.sets.setMap wq.workQueueSetIndex).tail)
                  st.sets.enqueueOrderToWorkQueueMaps)).setMap
                    wq.workQueueSetIndex
                  = (st.sets.setMap wq.workQueueSetIndex).tail := by
                show (updateAt _ _ _).getD _ [] = _
                rw [getD_updateAt_eq _ _ _ [] hslt]
              rw [hmap, pop_tail_mem hinv hmem hid htasks hp hp2 eo qid0]
              constructor
              · rintro ⟨hq0, hfe⟩
                exact Or.inr ⟨hq0, hfe⟩
              · rintro (⟨hq0, _, hh⟩ | ⟨hq0, hfe⟩)
                · rw [hrest] at hh
                  exact Option.noConfusion hh
                · exact ⟨hq0, hfe⟩
            · have hmap : (WorkQueueSets.mk (updateAt wq.workQueueSetIndex
                  (fun _ => (st.sets.setMap wq.workQueueSetIndex).tail)
                  st.sets.enqueueOrderToWorkQueueMaps)).setMap s
                  = st.sets.setMap s := by
                show (updateAt _ _ _).getD s [] = _
                rw [getD_updateAt_ne _ s _ _ [] (fun hx => hcase hx.symm)]
                rfl
              have hs' : s < st.sets.enqueueOrderToWorkQueueMaps.length := by
                rw [updateAt_length] at hs
                exact hs
              rw [hmap, hinv.content s hs' eo qid0]
              constructor
              · intro hfe
                by_cases hq0 : qid0 = qid
                · exfalso
                  obtain ⟨x, hx, hxid, hxs, hxh⟩ := hfe
                  have hxwq : x = wq :=
                    id_unique hinv.nodupIds hx hmem (by rw [hxid, hq0, hid])
                  exact hcase (by rw [← hxs, hxwq])
                · exact Or.inr ⟨hq0, hfe⟩
              · rintro (⟨hq0, hsind, hh⟩ | ⟨_, hfe⟩)
                · exact absurd hsind.symm hcase
                · exact hfe
        | some eoNew =>
          rw [hrest] at h
          simp only [Option.some.injEq] at h
          rw [← h]
          have hfreshNew := pop_tail_fresh hinv hmem hid htasks hp hp2
            (head?_mem hrest)
          refine schedInv_replace_aux hinv hmem hid rest st.nextEnqueueOrder
            _ hsortedRest hltRest
            (fun x hx eo heo => hinv.tasksLt x hx eo heo) hdisjRest
            (updateAt_length _ _ _) ?_ ?_
          · intro s
            by_cases hcase : s = wq.workQueueSetIndex
            · subst hcase
              have hmap : (WorkQueueSets.mk (updateAt wq.workQueueSetIndex
                  (fun _ => insertPair (eoNew, wq.id)
                    (st.sets.setMap wq.workQueueSetIndex).tail)
                  st.sets.enqueueOrderToWorkQueueMaps)).setMap
                    wq.workQueueSetIndex
                  = insertPair (eoNew, wq.id)
                    (st.sets.setMap wq.workQueueSetIndex).tail := by
                show (updateAt _ _ _).getD _ [] = _
                rw [getD_updateAt_eq _ _ _ [] hslt]
              rw [hmap]
              exact insertPair_pairwise htailsorted hfreshNew
            · have hmap : (WorkQueueSets.mk (updateAt wq.workQueueSetIndex
                  (fun _ => insertPair (eoNew, wq.id)
                    (st.sets.setMap wq.workQueueSetIndex).tail)
                  st.sets.enqueueOrderToWorkQueueMaps)).setMap s
                  = st.sets.setMap s := by
                show (updateAt _ _ _).getD s [] = _
                rw [getD_updateAt_ne _ s _ _ [] (fun hx => hcase hx.symm)]
                rfl
              rw [hmap]
              exact hinv.mapsSorted s
          · intro s hs eo qid0
            rw [frontEntryIn_replace_iff hinv.nodupIds hmem hid hid' s eo qid0]
            by_cases hcase : s = wq.workQueueSetIndex
            · subst hcase
              have hmap : (WorkQueueSets.mk (updateAt wq.workQueueSetIndex
                  (fun _ => insertPair (eoNew, wq.id)
                    (st.sets.setMap wq.workQueueSetIndex).tail)
                  st.sets.enqueueOrderToWorkQueueMaps)).setMap
                    wq.workQueueSetIndex
                  = insertPair (eoNew, wq.id)
                    (st.sets.setMap wq.workQueueSetIndex).tail := by
                show (updateAt _ _ _).getD _ [] = _
                rw [getD_updateAt_eq _ _ _ [] hslt]
              rw [hmap, mem_insertPair,
                pop_tail_mem hinv hmem hid htasks hp hp2 eo qid0]
              constructor
              · rintro (heq | ⟨hq0, hfe⟩)
                · rw [Prod.mk.injEq] at heq
                  refine Or.inl ⟨by rw [heq.2, hid], rfl, ?_⟩
                  rw [hrest, heq.1]
                · exact Or.inr ⟨hq0, hfe⟩
              · rintro (⟨hq0, _, hh⟩ | ⟨hq0, hfe⟩)
                · rw [hrest, Option.some.injEq] at hh
                  exact Or.inl (by rw [Prod.mk.injEq]; exact ⟨hh.symm, by rw [hq0, ← hid]⟩)
                · exact Or.inr ⟨hq0, hfe⟩
            · have hmap : (WorkQueueSets.mk (updateAt wq.workQueueSetIndex
                  (fun _ => insertPair (eoNew, wq.id)
                    (st.sets.setMap wq.workQueueSetIndex).tail)
                  st.sets.enqueueOrderToWorkQueueMaps)).setMap s
                  = st.sets.setMap s := by
                show (updateAt _ _ _).getD s [] = _
                rw [getD_updateAt_ne _ s _ _ [] (fun hx => hcase hx.symm)]
                rfl
              have hs' : s < st.sets.enqueueOrderToWorkQueueMaps.length := by
                rw [updateAt_length] at hs
                exact hs
              rw [hmap, hinv.content s hs' eo qid0]
              constructor
              · intro hfe
                by_cases hq0 : qid0 = qid
                · exfalso
                  obtain ⟨x, hx, hxid, hxs, hxh⟩ := hfe
                  have hxwq : x = wq :=
                    id_unique hinv.nodupIds hx hmem (by rw [hxid, hq0, hid])
                  exact hcase (by rw [← hxs, hxwq])
                · exact Or.inr ⟨hq0, hfe⟩
              · rintro (⟨hq0, hsind, hh⟩ | ⟨_, hfe⟩)
                · exact absurd hsind.symm hcase
                · exact hfe

/-- Every successfully applied operation preserves the invariant. -/
theorem schedInv_applyOp {st st' : SchedulerState} {op : SchedOp}
    (hinv : SchedInv st) (h : applyOp st op = some st') : SchedInv st' := by
  cases op with
  | push qid => exact schedInv_pushTask hinv h
  | pop qid => exact schedInv_popTask hinv h

/-- Every successful run of a sequence of operations preserves the
invariant. -/
theorem schedInv_runOps {ops : List SchedOp} :
    ∀ {st st' : SchedulerState}, SchedInv st → runOps st ops = some st' →
      SchedInv st' := by
  induction ops with
  | nil =>
    intro st st' hinv h
    rw [runOps, Option.some.injEq] at h
    exact h ▸ hinv
  | cons op ops ih =>
    intro st st' hinv h
    rw [runOps] at h
    cases hap : applyOp st op with
    | none => rw [hap] at h; simp at h
    | some st1 =>
      rw [hap] at h
      exact ih (schedInv_applyOp hinv hap) h

/-- The initial state satisfies the invariant. -/
theorem schedInv_initialState (numSets : Nat) (qs : List (Nat × Nat))
    (hnodup : (qs.map Prod.fst).Nodup) (hrange : ∀ p ∈ qs, p.2 < numSets) :
    SchedInv (initialState numSets qs) := by
  refine ⟨?_, ?_, ?_, ?_, ?_, ?_, ?_⟩
  · show ((qs.map (fun p => (⟨p.1, p.2, []⟩ : WorkQueue))).map
      (fun q => q.id)).Nodup
    rw [List.map_map]
    exact hnodup
  · intro wq hwq
    rcases List.mem_map.mp hwq with ⟨p, hp, hpe⟩
    show wq.workQueueSetIndex < (List.replicate numSets _).length
    rw [List.length_replicate, ← hpe]
    exact hrange p hp
  · intro wq hwq
    rcases List.mem_map.mp hwq with ⟨p, hp, hpe⟩
    rw [← hpe]
    simp
  · intro wq hwq eo heo
    rcases List.mem_map.mp hwq with ⟨p, hp, hpe⟩
    rw [← hpe] at heo
    simp at heo
  · intro wq1 hwq1 wq2 hwq2 hne eo heo
    rcases List.mem_map.mp hwq1 with ⟨p, hp, hpe⟩
    rw [← hpe] at heo
    simp at heo
  · intro s
    show ((List.replicate numSets []).getD s []).Pairwise _
    rw [getD_replicate_nil]
    exact List.Pairwise.nil
  · intro s hs eo qid
    show (eo, qid) ∈ (List.replicate numSets []).getD s [] ↔ _
    rw [getD_replicate_nil]
    simp only [List.not_mem_nil, false_iff]
    rintro ⟨x, hx, _, _, hxh⟩
    rcases List.mem_map.mp hx with ⟨p, hp, hpe⟩
    rw [← hpe] at hxh
    simp at hxh

/-- The oldest-queue query is correct in every invariant-satisfying state. -/
theorem getOldest_of_schedInv {st : SchedulerState} (hinv : SchedInv st)
    (s : Nat) (hs : s < st.sets.enqueueOrderToWorkQueueMaps.length) :
    (st.sets.GetOldestQueueInSet s = none ↔ st.sets.setMap s = []) ∧
    ∀ qid, st.sets.GetOldestQueueInSet s = some qid →
      ∃ eo, (eo, qid) ∈ st.sets.setMap s ∧
        (∀ r ∈ st.sets.setMap s, eo ≤ r.1) ∧
        ∃ wq ∈ st.queues, wq.id = qid ∧ wq.workQueueSetIndex = s ∧
          wq.tasks.head? = some eo ∧
          ∀ wq' ∈ st.queues, wq'.workQueueSetIndex = s →
            ∀ eo' ∈ wq'.tasks, eo ≤ eo' := by
  constructor
  · rw [WorkQueueSets.GetOldestQueueInSet]
    cases hmap : st.sets.setMap s with
    | nil => simp
    | cons r tl => simp
  · intro qid hq
    rw [WorkQueueSets.GetOldestQueueInSet] at hq
    cases hhead : (st.sets.setMap s).head? with
    | none => rw [hhead] at hq; simp at hq
    | some p =>
      rw [hhead] at hq
      simp at hq
      refine ⟨p.1, ?_, ?_, ?_⟩
      · rw [← hq, Prod.mk.eta]
        exact head?_mem hhead
      · intro r hr
        exact head_le_of_pairwise (hinv.mapsSorted s) hhead hr
      · have hfe := (hinv.content s hs p.1 p.2).mp
          (by rw [Prod.mk.eta]; exact head?_mem hhead)
        obtain ⟨wq, hwq, hwqid, hwqs, hwqh⟩ := hfe
        refine ⟨wq, hwq, by rw [hwqid]; exact hq, hwqs, hwqh, ?_⟩
        intro wq' hwq' hwqs' eo' heo'
        cases hh' : wq'.tasks.head? with
        | none =>
          have hnil : wq'.tasks = [] := by
            cases htl : wq'.tasks with
            | nil => rfl
            | cons a as => rw [htl] at hh'; simp at hh'
          rw [hnil] at heo'
          simp at heo'
        | some h' =>
          have hentry := (hinv.content s hs h' wq'.id).mpr
            ⟨wq', hwq', rfl, hwqs', hh'⟩
          have h1 : p.1 ≤ h' :=
            head_le_of_pairwise (hinv.mapsSorted s) hhead hentry
          have h2 : h' ≤ eo' :=
            head_le_of_sorted_tasks (hinv.tasksSorted wq' hwq') hh' heo'
          exact le_trans h1 h2

/-- Helper: the truncated remainder by one second lies strictly between
`-oneSecond` and `oneSecond`. -/
theorem tmod_oneSecond_bounds (a : Int) :
    -oneSecond < a.tmod oneSecond ∧ a.tmod oneSecond < oneSecond := by
  constructor
  · cases a with
    | ofNat m =>
      have h := Int.tmod_nonneg (a := Int.ofNat m) oneSecond (Int.ofNat_nonneg m)
      have h2 : (0:Int) < oneSecond := by norm_num [oneSecond]
      omega
    | negSucc m =>
      have h1 : Int.tmod (Int.negSucc m) oneSecond = -(((m + 1) % 1000000 : Nat) : Int) := by
        simp [Int.tmod, oneSecond]
      have h2 : ((m + 1) % 1000000 : Nat) < 1000000 := Nat.mod_lt _ (by norm_num)
      rw [h1]
      simp only [oneSecond]
      omega
  · exact Int.tmod_lt_of_pos a (by norm_num [oneSecond])

/-- The throttled run time always lies strictly after the input time. -/
theorem throttledRunTime_gt (t : Int) : t < ThrottledRunTime t := by
  have h := (tmod_oneSecond_bounds t).2
  simp only [ThrottledRunTime, sub_zero]
  omega

/-- The throttled run time is an exact multiple of one second. -/
theorem throttledRunTime_dvd (t : Int) : oneSecond ∣ ThrottledRunTime t := by
  have hdef : t.tmod oneSecond = t - oneSecond * t.tdiv oneSecond :=
    Int.tmod_def t oneSecond
  refine ⟨t.tdiv oneSecond + 1, ?_⟩
  simp only [ThrottledRunTime, sub_zero]
  rw [hdef]
  ring

theorem intMin?_mem {l : List Int} {a : Int} (h : l.min? = some a) : a ∈ l :=
  List.min?_mem (fun a b => min_choice a b) h

theorem intMin?_le {l : List Int} {a : Int} (h : l.min? = some a) :
    ∀ b ∈ l, a ≤ b :=
  fun b hb =>
    (List.le_min?_iff (fun a b c => le_min_iff) h).1 (le_refl a) b hb

/-- C1: `ThrottledRunTime(t)` equals `t + 1s - ((t - epoch) tmod 1s)`; it is
strictly greater than `t`; it is an exact multiple of one second from the
epoch; and when `t` is exactly `N` seconds from the epoch the result is
exactly `N + 1` seconds. -/
theorem throttledRunTime_spec (t : Int) :
    ThrottledRunTime t = t + oneSecond - (t - 0).tmod oneSecond ∧
    t < ThrottledRunTime t ∧
    oneSecond ∣ ThrottledRunTime t ∧
    (∀ N : Int, t = N * oneSecond → ThrottledRunTime t = (N + 1) * oneSecond) := by
  refine ⟨rfl, throttledRunTime_gt t, throttledRunTime_dvd t, ?_⟩
  · intro N hN
    have hmod : (N * oneSecond).tmod oneSecond = 0 := Int.mul_tmod_left N oneSecond
    simp only [ThrottledRunTime, sub_zero, hN, hmod]
    ring

/-- Witness for C1 at the concrete inputs `t = 5000000` (exactly 5 seconds)
and the hypothesis `t = 5 * oneSecond`. -/
theorem throttledRunTime_spec_witness :
    (5000000 : Int) < ThrottledRunTime 5000000 ∧
    ThrottledRunTime 5000000 = (5 + 1) * oneSecond :=
  ⟨(throttledRunTime_spec 5000000).2.1,
   (throttledRunTime_spec 5000000).2.2.2 5 (by norm_num [oneSecond])⟩

theorem getD_of_ge {α : Type _} (l : List α) (d : α) {i : Nat}
    (h : l.length ≤ i) : l.getD i d = d := by
  induction l generalizing i with
  | nil => cases i <;> rfl
  | cons x xs ih =>
    match i with
    | 0 => simp at h
    | i + 1 =>
      rw [List.getD_cons_succ]
      exact ih (by simpa using h)

/-- C3: for every set index, `GetOldestQueueInSet` returns none exactly when
the set's map is empty, and otherwise returns the queue registered under the
smallest enqueue-order key of the set; across all sequences of pushes and
pops maintained through `OnPushQueue`/`OnPopQueue` from an initial state, the
returned queue holds the task with the globally smallest remaining enqueue
order among the set's queues. -/
theorem GetOldestQueueInSet_spec (numSets : Nat) (qs : List (Nat × Nat))
    (hnodup : (qs.map Prod.fst).Nodup) (hrange : ∀ p ∈ qs, p.2 < numSets)
    (ops : List SchedOp) (st : SchedulerState)
    (hrun : runOps (initialState numSets qs) ops = some st)
    (s : Nat) (hs : s < st.sets.enqueueOrderToWorkQueueMaps.length) :
    (st.sets.GetOldestQueueInSet s = none ↔ st.sets.setMap s = []) ∧
    ∀ qid, st.sets.GetOldestQueueInSet s = some qid →
      ∃ eo, (eo, qid) ∈ st.sets.setMap s ∧
        (∀ r ∈ st.sets.setMap s, eo ≤ r.1) ∧
        ∃ wq ∈ st.queues, wq.id = qid ∧ wq.workQueueSetIndex = s ∧
          wq.tasks.head? = some eo ∧
          ∀ wq' ∈ st.queues, wq'.workQueueSetIndex = s →
            ∀ eo' ∈ wq'.tasks, eo ≤ eo' :=
  getOldest_of_schedInv
    (schedInv_runOps (schedInv_initialState numSets qs hnodup hrange) hrun)
    s hs

/-- Witness for C3: two queues in set 0; push a task on each, pop the first
queue; the oldest queue of set 0 is then queue 1 holding order 1. -/
theorem GetOldestQueueInSet_spec_witness :
    (c3State.sets.GetOldestQueueInSet 0 = none ↔ c3State.sets.setMap 0 = []) ∧
    ∀ qid, c3State.sets.GetOldestQueueInSet 0 = some qid →
      ∃ eo, (eo, qid) ∈ c3State.sets.setMap 0 ∧
        (∀ r ∈ c3State.sets.setMap 0, eo ≤ r.1) ∧
        ∃ wq ∈ c3State.queues, wq.id = qid ∧ wq.workQueueSetIndex = 0 ∧
          wq.tasks.head? = some eo ∧
          ∀ wq' ∈ c3State.queues, wq'.workQueueSetIndex = 0 →
            ∀ eo' ∈ wq'.tasks, eo ≤ eo' :=
  GetOldestQueueInSet_spec 1 [(0, 0), (1, 0)] (by decide) (by decide)
    [SchedOp.push 0, SchedOp.push 1, SchedOp.pop 0] c3State (by decide)
    0 (by decide)

/-- C5: `OnPopQueue(queue)` fails its assertion exactly when the queue is not
the minimum entry of its set's map; on success it erases that minimum entry
(whose key is the least key of the whole map) and reinserts the queue under
its new front enqueue order when one exists, leaving every other set
untouched. -/
theorem OnPopQueue_spec (sets : WorkQueueSets) (wq : WorkQueue)
    (hs : wq.workQueueSetIndex < sets.enqueueOrderToWorkQueueMaps.length)
    (hsorted : (sets.setMap wq.workQueueSetIndex).Pairwise
      (fun a b => a.1 < b.1)) :
    (sets.OnPopQueue wq = none ↔
      ∀ p, (sets.setMap wq.workQueueSetIndex).head? = some p → p.2 ≠ wq.id) ∧
    ∀ sets', sets.OnPopQueue wq = some sets' →
      ∃ p, (sets.setMap wq.workQueueSetIndex).head? = some p ∧ p.2 = wq.id ∧
        (∀ r ∈ sets.setMap wq.workQueueSetIndex, p.1 ≤ r.1) ∧
        (wq.tasks.head? = none →
          sets'.setMap wq.workQueueSetIndex
            = (sets.setMap wq.workQueueSetIndex).tail) ∧
        (∀ eo, wq.tasks.head? = some eo →
          sets'.setMap wq.workQueueSetIndex
            = insertPair (eo, wq.id) (sets.setMap wq.workQueueSetIndex).tail) ∧
        ∀ s', s' ≠ wq.workQueueSetIndex → sets'.setMap s' = sets.setMap s' := by
  rw [WorkQueueSets.OnPopQueue]
  simp only
  rw [if_pos hs]
  cases hhead : (sets.setMap wq.workQueueSetIndex).head? with
  | none =>
    constructor
    · constructor
      · intro _ p hp
        exact Option.noConfusion hp
      · intro _
        rfl
    · intro sets' hcon
      exact Option.noConfusion hcon
  | some p =>
    dsimp only
    by_cases hp2 : p.2 = wq.id
    · rw [if_pos hp2]
      constructor
      · constructor
        · intro hcon
          exact Option.noConfusion hcon
        · intro hall
          exact absurd hp2 (hall p rfl)
      · intro sets' heq
        rw [Option.some.injEq] at heq
        refine ⟨p, rfl, hp2, ?_, ?_, ?_, ?_⟩
        · intro r hr
          exact head_le_of_pairwise hsorted hhead hr
        · intro hfront
          rw [← heq]
          show (updateAt _ _ _).getD _ [] = _
          rw [getD_updateAt_eq _ _ _ [] hs]
          simp only [WorkQueue.GetFrontTaskEnqueueOrder]
          rw [hfront]
        · intro eo hfront
          rw [← heq]
          show (updateAt _ _ _).getD _ [] = _
          rw [getD_updateAt_eq _ _ _ [] hs]
          simp only [WorkQueue.GetFrontTaskEnqueueOrder]
          rw [hfront]
        · intro s' hs'
          rw [← heq]
          show (updateAt _ _ _).getD s' [] = _
          rw [getD_updateAt_ne _ s' _ _ [] (fun hx => hs' hx.symm)]
          rfl
    · rw [if_neg hp2]
      constructor
      · constructor
        · intro _ q hq
          rw [Option.some.injEq] at hq
          rw [← hq]
          exact hp2
        · intro _
          rfl
      · intro sets' hcon
        exact Option.noConfusion hcon

/-- Witness for C5 at a concrete sets/queue pair: queue 7 is the minimum
entry of set 0 and has a new front task of order 5. -/
theorem OnPopQueue_spec_witness :
    (c5Sets.OnPopQueue c5Queue = none ↔
      ∀ p, (c5Sets.setMap c5Queue.workQueueSetIndex).head? = some p →
        p.2 ≠ c5Queue.id) ∧
    ∀ sets', c5Sets.OnPopQueue c5Queue = some sets' →
      ∃ p, (c5Sets.setMap c5Queue.workQueueSetIndex).head? = some p ∧
        p.2 = c5Queue.id ∧
        (∀ r ∈ c5Sets.setMap c5Queue.workQueueSetIndex, p.1 ≤ r.1) ∧
        (c5Queue.tasks.head? = none →
          sets'.setMap c5Queue.workQueueSetIndex
            = (c5Sets.setMap c5Queue.workQueueSetIndex).tail) ∧
        (∀ eo, c5Queue.tasks.head? = some eo →
          sets'.setMap c5Queue.workQueueSetIndex
            = insertPair (eo, c5Queue.id)
                (c5Sets.setMap c5Queue.workQueueSetIndex).tail) ∧
        ∀ s', s' ≠ c5Queue.workQueueSetIndex →
          sets'.setMap s' = c5Sets.setMap s' :=
  OnPopQueue_spec c5Sets c5Queue (by decide) (by decide)

/-- C9: `RemoveQueue(queue)` is a no-op on the sets when the queue has no
front task; when it has front order `eo`, the queue's entry is erased from
its current set's map, the other sets are untouched, and (under the
invariant that the queue appears only under that key in that set)
`GetOldestQueueInSet` never returns this queue afterwards. -/
theorem RemoveQueue_spec (sets : WorkQueueSets) (wq : WorkQueue)
    (hs : wq.workQueueSetIndex < sets.enqueueOrderToWorkQueueMaps.length) :
    (wq.GetFrontTaskEnqueueOrder = none → sets.RemoveQueue wq = some sets) ∧
    ∀ eo, wq.GetFrontTaskEnqueueOrder = some eo →
      ∀ sets', sets.RemoveQueue wq = some sets' →
        sets'.setMap wq.workQueueSetIndex
          = eraseKey eo (sets.setMap wq.workQueueSetIndex) ∧
        (∀ s', s' ≠ wq.workQueueSetIndex → sets'.setMap s' = sets.setMap s') ∧
        ((∀ s0, s0 < sets.enqueueOrderToWorkQueueMaps.length →
            (sets.setMap s0).Pairwise (fun a b => a.1 < b.1)) →
          (∀ s0, s0 < sets.enqueueOrderToWorkQueueMaps.length →
            ∀ r ∈ sets.setMap s0, r.2 = wq.id →
              s0 = wq.workQueueSetIndex ∧ r.1 = eo) →
          ∀ s0, sets'.GetOldestQueueInSet s0 ≠ some wq.id) := by
  constructor
  · intro hfront
    rw [WorkQueueSets.RemoveQueue, hfront]
  · intro eo hfront sets' heq
    rw [WorkQueueSets.RemoveQueue, hfront] at heq
    simp only at heq
    rw [if_pos hs] at heq
    cases hlook : lookupKey eo (sets.setMap wq.workQueueSetIndex) with
    | none => rw [hlook] at heq; simp at heq
    | some q =>
      rw [hlook] at heq
      simp only at heq
      by_cases hq : q = wq.id
      swap
      · rw [if_neg hq] at heq
        exact Option.noConfusion heq
      rw [if_pos hq] at heq
      rw [Option.some.injEq] at heq
      have hm1 : sets'.setMap wq.workQueueSetIndex
          = eraseKey eo (sets.setMap wq.workQueueSetIndex) := by
        rw [← heq]
        show (updateAt _ _ _).getD _ [] = _
        rw [getD_updateAt_eq _ _ _ [] hs]
        rfl
      have hm2 : ∀ s', s' ≠ wq.workQueueSetIndex →
          sets'.setMap s' = sets.setMap s' := by
        intro s' hs'
        rw [← heq]
        show (updateAt _ _ _).getD s' [] = _
        rw [getD_updateAt_ne _ s' _ _ [] (fun hx => hs' hx.symm)]
        rfl
      have hlen : sets'.enqueueOrderToWorkQueueMaps.length
          = sets.enqueueOrderToWorkQueueMaps.length := by
        rw [← heq]
        exact updateAt_length _ _ _
      refine ⟨hm1, hm2, ?_⟩
      intro hsorted huniq s0 hcon
      rw [WorkQueueSets.GetOldestQueueInSet] at hcon
      cases hh : (sets'.setMap s0).head? with
      | none => rw [hh] at hcon; simp at hcon
      | some r =>
        rw [hh] at hcon
        simp at hcon
        have hrm : r ∈ sets'.setMap s0 := head?_mem hh
        by_cases hrange : s0 < sets.enqueueOrderToWorkQueueMaps.length
        · by_cases hcase : s0 = wq.workQueueSetIndex
          · subst hcase
            rw [hm1] at hrm
            have hrm2 : r ∈ sets.setMap wq.workQueueSetIndex :=
              (eraseKey_sublist _ _).subset hrm
            have hre : r.1 = eo := (huniq _ hs r hrm2 hcon).2
            have hkeys := keys_nodup_of_pairwise (hsorted _ hs)
            have hreq : r = (eo, wq.id) := by
              rw [← hre, ← hcon]
            have hbad : (eo, wq.id)
                ∈ eraseKey eo (sets.setMap wq.workQueueSetIndex) :=
              hreq ▸ hrm
            exact not_mem_eraseKey hkeys hbad
          · rw [hm2 s0 hcase] at hrm
            exact hcase (huniq s0 hrange r hrm hcon).1
        · have hnil : sets'.setMap s0 = [] := by
            show sets'.enqueueOrderToWorkQueueMaps.getD s0 [] = []
            exact getD_of_ge _ _ (by rw [hlen]; omega)
          rw [hnil] at hrm
          simp at hrm

/-- Witness for C9 at a concrete sets/queue pair: queue 4 sits in set 0 under
its front order 3; set 1 holds an unrelated queue. -/
theorem RemoveQueue_spec_witness :
    (c9Queue.GetFrontTaskEnqueueOrder = none →
      c9Sets.RemoveQueue c9Queue = some c9Sets) ∧
    ∀ eo, c9Queue.GetFrontTaskEnqueueOrder = some eo →
      ∀ sets', c9Sets.RemoveQueue c9Queue = some sets' →
        sets'.setMap c9Queue.workQueueSetIndex
          = eraseKey eo (c9Sets.setMap c9Queue.workQueueSetIndex) ∧
        (∀ s', s' ≠ c9Queue.workQueueSetIndex →
          sets'.setMap s' = c9Sets.setMap s') ∧
        ((∀ s0, s0 < c9Sets.enqueueOrderToWorkQueueMaps.length →
            (c9Sets.setMap s0).Pairwise (fun a b => a.1 < b.1)) →
          (∀ s0, s0 < c9Sets.enqueueOrderToWorkQueueMaps.length →
            ∀ r ∈ c9Sets.setMap s0, r.2 = c9Queue.id →
              s0 = c9Queue.workQueueSetIndex ∧ r.1 = eo) →
          ∀ s0, sets'.GetOldestQueueInSet s0 ≠ some c9Queue.id) :=
  RemoveQueue_spec c9Sets c9Queue (by decide)

/-- C4: `RealTimeDomain::MaybeAdvanceTime` returns true exactly when the
earliest scheduled run time exists and is at or before `now`; when there is
no scheduled run time it returns false with no wake-up request, and when the
earliest run time is in the future it requests a delayed wake-up of exactly
`next - now` and returns false. -/
theorem MaybeAdvanceTime_spec (d : RealTimeDomain) (now : Int) :
    ((d.MaybeAdvanceTime now).1 = true ↔
      ∃ next, d.NextScheduledRunTime = some next ∧ next ≤ now) ∧
    (d.NextScheduledRunTime = none → d.MaybeAdvanceTime now = (false, none)) ∧
    (∀ next, d.NextScheduledRunTime = some next → now < next →
      d.MaybeAdvanceTime now = (false, some (next - now))) ∧
    ((d.MaybeAdvanceTime now).1 = true ↔ ∃ t ∈ d.wakeups, t ≤ now) := by
  have hmain : (d.MaybeAdvanceTime now).1 = true ↔
      ∃ next, d.NextScheduledRunTime = some next ∧ next ≤ now := by
    rw [RealTimeDomain.MaybeAdvanceTime]
    cases hn : d.NextScheduledRunTime with
    | none => simp
    | some next =>
      by_cases hle : next ≤ now
      · simp [hle]
      · simp [hle]
  refine ⟨hmain, ?_, ?_, ?_⟩
  · intro hnone
    rw [RealTimeDomain.MaybeAdvanceTime, hnone]
  · intro next hsome hlt
    rw [RealTimeDomain.MaybeAdvanceTime, hsome]
    simp only
    rw [if_neg (by omega)]
  · rw [hmain]
    constructor
    · rintro ⟨next, hsome, hle⟩
      exact ⟨next, intMin?_mem hsome, hle⟩
    · rintro ⟨t, ht, hle⟩
      have hs := List.isSome_min?_of_mem ht
      obtain ⟨next, hnext⟩ := Option.isSome_iff_exists.mp hs
      exact ⟨next, hnext, le_trans (intMin?_le hnext t ht) hle⟩

/-- Witness for C4: with one wake-up at 2.5s and now = 1s, the domain
requests a 1.5s delayed wake-up and returns false; with a wake-up at 1s and
now = 2s it returns true. -/
theorem MaybeAdvanceTime_spec_witness :
    (RealTimeDomain.mk [2500000]).MaybeAdvanceTime 1000000
      = (false, some (2500000 - 1000000)) ∧
    ((RealTimeDomain.mk [1000000]).MaybeAdvanceTime 2000000).1 = true :=
  ⟨(MaybeAdvanceTime_spec ⟨[2500000]⟩ 1000000).2.2.1 2500000 rfl (by decide),
   (MaybeAdvanceTime_spec ⟨[1000000]⟩ 2000000).1.mpr
     ⟨1000000, rfl, by decide⟩⟩

/-- `MaybeSchedulePumpThrottledTasksLocked` leaves the throttled-queue set
and the time domain untouched. -/
theorem msp_fields (h : ThrottlingHelper) (now t : Int) :
    (h.MaybeSchedulePumpThrottledTasksLocked now t).throttledQueues
      = h.throttledQueues ∧
    (h.MaybeSchedulePumpThrottledTasksLocked now t).timeDomain
      = h.timeDomain := by
  rw [ThrottlingHelper.MaybeSchedulePumpThrottledTasksLocked]
  by_cases hcond : ¬h.pendingPumpThrottledTasksRuntime = 0 ∧
      h.pendingPumpThrottledTasksRuntime ≤ ThrottledRunTime t
  · rw [if_pos hcond]
    exact ⟨rfl, rfl⟩
  · rw [if_neg hcond]
    exact ⟨rfl, rfl⟩

/-- When a pump is pending at or before the new throttled run time, the
scheduling request is dropped. -/
theorem msp_noop (h : ThrottlingHelper) (now t : Int)
    (hcond : ¬h.pendingPumpThrottledTasksRuntime = 0 ∧
      h.pendingPumpThrottledTasksRuntime ≤ ThrottledRunTime t) :
    h.MaybeSchedulePumpThrottledTasksLocked now t = h := by
  rw [ThrottlingHelper.MaybeSchedulePumpThrottledTasksLocked]
  rw [if_pos hcond]

/-- When no pump is pending, or the new throttled run time is strictly
earlier, the pump is (re)scheduled at the throttled run time. -/
theorem msp_scheduled (h : ThrottlingHelper) (now t : Int)
    (hcond : h.pendingPumpThrottledTasksRuntime = 0 ∨
      ThrottledRunTime t < h.pendingPumpThrottledTasksRuntime) :
    (h.MaybeSchedulePumpThrottledTasksLocked now t).pendingPumpThrottledTasksRuntime
      = ThrottledRunTime t ∧
    (h.MaybeSchedulePumpThrottledTasksLocked now t).postedPumpTasks
      = [ThrottledRunTime t] := by
  rw [ThrottlingHelper.MaybeSchedulePumpThrottledTasksLocked]
  rw [if_neg (by omega)]
  refine ⟨rfl, ?_⟩
  have harith : now + (ThrottledRunTime t - now) = ThrottledRunTime t := by
    ring
  rw [harith]

/-- The cancel-then-post discipline keeps at most one posted pump
callback. -/
theorem msp_posted_le (h : ThrottlingHelper) (now t : Int)
    (hl : h.postedPumpTasks.length ≤ 1) :
    (h.MaybeSchedulePumpThrottledTasksLocked now t).postedPumpTasks.length
      ≤ 1 := by
  rw [ThrottlingHelper.MaybeSchedulePumpThrottledTasksLocked]
  by_cases hcond : ¬h.pendingPumpThrottledTasksRuntime = 0 ∧
      h.pendingPumpThrottledTasksRuntime ≤ ThrottledRunTime t
  · rw [if_pos hcond]
    exact hl
  · rw [if_neg hcond]
    simp

/-- C2: `MaybeSchedulePumpThrottledTasksLocked(now, t)` computes the
throttled run time of `t` and (re)schedules the pump callback exactly when no
pump is pending (`pending = 0`, the null `TimeTicks`) or the new throttled
run time is strictly earlier than the pending one; a request at or after the
pending pump leaves the state unchanged, a scheduled request cancels the old
posted callback and posts exactly one new one, so at most one pump wake-up
timer is ever outstanding. -/
theorem MaybeSchedulePump_spec (h : ThrottlingHelper) (now t : Int) :
    (¬h.pendingPumpThrottledTasksRuntime = 0 ∧
        h.pendingPumpThrottledTasksRuntime ≤ ThrottledRunTime t →
      h.MaybeSchedulePumpThrottledTasksLocked now t = h) ∧
    (h.pendingPumpThrottledTasksRuntime = 0 ∨
        ThrottledRunTime t < h.pendingPumpThrottledTasksRuntime →
      (h.MaybeSchedulePumpThrottledTasksLocked now t).pendingPumpThrottledTasksRuntime
          = ThrottledRunTime t ∧
      (h.MaybeSchedulePumpThrottledTasksLocked now t).postedPumpTasks
          = [ThrottledRunTime t]) ∧
    (h.postedPumpTasks.length ≤ 1 →
      (h.MaybeSchedulePumpThrottledTasksLocked now t).postedPumpTasks.length
        ≤ 1) ∧
    (h.MaybeSchedulePumpThrottledTasksLocked now t).throttledQueues
      = h.throttledQueues :=
  ⟨msp_noop h now t, msp_scheduled h now t, msp_posted_le h now t,
    (msp_fields h now t).1⟩

/-- Witness for C2: with no pending pump, a request at t = 0 schedules the
pump at the next second boundary and posts exactly one callback. -/
theorem MaybeSchedulePump_spec_witness :
    ((ThrottlingHelper.mk [] 0 ⟨0, []⟩ []).MaybeSchedulePumpThrottledTasksLocked
        0 0).pendingPumpThrottledTasksRuntime = ThrottledRunTime 0 ∧
    ((ThrottlingHelper.mk [] 0 ⟨0, []⟩ []).MaybeSchedulePumpThrottledTasksLocked
        0 0).postedPumpTasks = [ThrottledRunTime 0] ∧
    ((ThrottlingHelper.mk [] 0 ⟨0, []⟩ []).MaybeSchedulePumpThrottledTasksLocked
        0 0).postedPumpTasks.length ≤ 1 :=
  ⟨((MaybeSchedulePump_spec (ThrottlingHelper.mk [] 0 ⟨0, []⟩ []) 0 0).2.1
      (Or.inl rfl)).1,
   ((MaybeSchedulePump_spec (ThrottlingHelper.mk [] 0 ⟨0, []⟩ []) 0 0).2.1
      (Or.inl rfl)).2,
   (MaybeSchedulePump_spec (ThrottlingHelper.mk [] 0 ⟨0, []⟩ []) 0 0).2.2.1
      (by decide)⟩

/-- C6: `PumpThrottledTasks` pumps every non-empty throttled queue and leaves
empty or unthrottled queues untouched, advances the throttled domain's clock
to `now`, clears every expired wake-up, and then reschedules the next
coalesced pump exactly when the domain still reports a next scheduled run
time; the cleared pending marker means the rescheduled pump lands on the
throttled (quantized, strictly future) run time of that next wake-up. -/
theorem PumpThrottledTasks_spec (st : ThrottlerState) (now : Int) :
    (∀ q ∈ st.queues, q.id ∈ st.helper.throttledQueues → q.IsEmpty = false →
      q.PumpQueue ∈ (PumpThrottledTasks st now).queues) ∧
    (∀ q ∈ st.queues, q.id ∉ st.helper.throttledQueues ∨ q.IsEmpty = true →
      q ∈ (PumpThrottledTasks st now).queues) ∧
    (PumpThrottledTasks st now).helper.timeDomain.now = now ∧
    (∀ p ∈ (PumpThrottledTasks st now).helper.timeDomain.wakeups,
      now < p.1) ∧
    (((st.helper.timeDomain.AdvanceTo now).ClearExpiredWakeups).NextScheduledRunTime
        = none →
      (PumpThrottledTasks st now).helper.pendingPumpThrottledTasksRuntime = 0 ∧
      (PumpThrottledTasks st now).helper.postedPumpTasks = []) ∧
    (∀ next,
      ((st.helper.timeDomain.AdvanceTo now).ClearExpiredWakeups).NextScheduledRunTime
        = some next →
      (PumpThrottledTasks st now).helper.pendingPumpThrottledTasksRuntime
        = ThrottledRunTime next ∧
      now < ThrottledRunTime next ∧ oneSecond ∣ ThrottledRunTime next) := by
  cases hnext : ((st.helper.timeDomain.AdvanceTo now).ClearExpiredWakeups).NextScheduledRunTime with
  | none =>
    have heq : PumpThrottledTasks st now
        = ⟨ThrottlingHelper.mk st.helper.throttledQueues 0
            ((st.helper.timeDomain.AdvanceTo now).ClearExpiredWakeups) [],
          st.queues.map (fun q =>
            if q.id ∈ st.helper.throttledQueues ∧ q.IsEmpty = false
            then q.PumpQueue else q)⟩ := by
      simp only [PumpThrottledTasks]
      rw [hnext]
    rw [heq]
    refine ⟨?_, ?_, rfl, ?_, fun _ => ⟨rfl, rfl⟩, ?_⟩
    · intro q hq hin hne
      exact List.mem_map.mpr ⟨q, hq, by rw [if_pos ⟨hin, hne⟩]⟩
    · intro q hq hcase
      refine List.mem_map.mpr ⟨q, hq, ?_⟩
      rw [if_neg]
      rintro ⟨h1, h2⟩
      rcases hcase with hni | hemp
      · exact hni h1
      · rw [hemp] at h2
        exact Bool.noConfusion h2
    · intro p hp
      have := (List.mem_filter.mp hp).2
      simpa using this
    · intro next' hsome
      exact Option.noConfusion hsome
  | some next =>
    have heq : PumpThrottledTasks st now
        = ⟨(ThrottlingHelper.mk st.helper.throttledQueues 0
              ((st.helper.timeDomain.AdvanceTo now).ClearExpiredWakeups)
              []).MaybeSchedulePumpThrottledTasksLocked now next,
          st.queues.map (fun q =>
            if q.id ∈ st.helper.throttledQueues ∧ q.IsEmpty = false
            then q.PumpQueue else q)⟩ := by
      simp only [PumpThrottledTasks]
      rw [hnext]
    have hfields := msp_fields
      (ThrottlingHelper.mk st.helper.throttledQueues 0
        ((st.helper.timeDomain.AdvanceTo now).ClearExpiredWakeups) [])
      now next
    rw [heq]
    refine ⟨?_, ?_, ?_, ?_, ?_, ?_⟩
    · intro q hq hin hne
      exact List.mem_map.mpr ⟨q, hq, by rw [if_pos ⟨hin, hne⟩]⟩
    · intro q hq hcase
      refine List.mem_map.mpr ⟨q, hq, ?_⟩
      rw [if_neg]
      rintro ⟨h1, h2⟩
      rcases hcase with hni | hemp
      · exact hni h1
      · rw [hemp] at h2
        exact Bool.noConfusion h2
    · rw [hfields.2]
      rfl
    · intro p hp
      rw [hfields.2] at hp
      have := (List.mem_filter.mp hp).2
      simpa using this
    · intro hnone
      exact Option.noConfusion hnone
    · intro next' hsome
      rw [Option.some.injEq] at hsome
      subst hsome
      have hsched := msp_scheduled
        (ThrottlingHelper.mk st.helper.throttledQueues 0
          ((st.helper.timeDomain.AdvanceTo now).ClearExpiredWakeups) [])
        now next (Or.inl rfl)
      refine ⟨hsched.1, ?_, throttledRunTime_dvd next⟩
      have hmem := intMin?_mem hnext
      rcases List.mem_map.mp hmem with ⟨p, hpmem, hp1⟩
      have hgt : now < p.1 := by
        have := (List.mem_filter.mp hpmem).2
        simpa using this
      have := throttledRunTime_gt next
      omega

/-- Witness for C6: pumping at now = 2s with a single throttled non-empty
queue and a wake-up at 2.3s pumps the queue and schedules the next pump at
the 3s boundary (strictly after now). -/
theorem PumpThrottledTasks_spec_witness :
    (⟨5, TimeDomainKind.throttled, PumpPolicy.MANUAL, [42], [(2300000, 9)], []⟩
        : TaskQueue).PumpQueue ∈ (PumpThrottledTasks c6State 2000000).queues ∧
    (PumpThrottledTasks c6State 2000000).helper.pendingPumpThrottledTasksRuntime
      = ThrottledRunTime 2300000 ∧
    (2000000 : Int) < ThrottledRunTime 2300000 :=
  ⟨(PumpThrottledTasks_spec c6State 2000000).1
      ⟨5, TimeDomainKind.throttled, PumpPolicy.MANUAL, [42], [(2300000, 9)], []⟩
      (by decide) (by decide) (by decide),
   ((PumpThrottledTasks_spec c6State 2000000).2.2.2.2.2 2300000 (by decide)).1,
   ((PumpThrottledTasks_spec c6State 2000000).2.2.2.2.2 2300000 (by decide)).2.1⟩

theorem mem_insertThrottled (l : List Nat) (qid : Nat) :
    qid ∈ (if qid ∈ l then l else l ++ [qid]) := by
  by_cases h : qid ∈ l
  · rw [if_pos h]
    exact h
  · rw [if_neg h]
    exact List.mem_append.mpr (Or.inr (by simp))

theorem mem_replaceTaskQueue_self {queues : List TaskQueue} {qid : Nat}
    {q q' : TaskQueue} (hq : q ∈ queues) (hid : q.id = qid) :
    q' ∈ replaceTaskQueue queues qid q' :=
  List.mem_map.mpr ⟨q, hq, by rw [if_pos hid]⟩

/-- A non-empty queue with no pending immediate work has a next delayed run
time. -/
theorem queueNext_of_nonempty_noimm {q : TaskQueue}
    (hemp : q.IsEmpty = false) (himm : q.HasPendingImmediateWork = false) :
    ∃ rt, queueNextDelayedRuntime q = some rt := by
  have h1 : q.immediateTasks.isEmpty = true := by
    rw [TaskQueue.HasPendingImmediateWork] at himm
    cases hi : q.immediateTasks.isEmpty
    · rw [hi] at himm
      simp at himm
    · rfl
  have h2 : q.delayedTasks.isEmpty = false := by
    rw [TaskQueue.IsEmpty, h1] at hemp
    simpa using hemp
  cases hd : q.delayedTasks with
  | nil => rw [hd] at h2; simp at h2
  | cons p rest =>
    have hmem : p.1 ∈ q.delayedTasks.map (fun x => x.1) := by
      rw [hd]
      simp
    have hs := List.isSome_min?_of_mem hmem
    obtain ⟨rt, hrt⟩ := Option.isSome_iff_exists.mp hs
    exact ⟨rt, hrt⟩

/-- C7: `Throttle` rejects the helper's own control queue; for any other
queue it inserts the queue into `throttled_queues_`, moves it to the
throttled time domain with MANUAL pump policy without touching its tasks,
leaves the pending pump untouched when the queue is empty, and otherwise
triggers the immediate-work path (scheduling a pump at the throttled run
time of now) when the queue has pending immediate work, and the delayed-work
path (scheduling a pump at the throttled run time of the queue's next
delayed task) otherwise. -/
theorem Throttle_spec (st : ThrottlerState) (ctrl : Nat) (now : Int)
    (qid : Nat) :
    (qid = ctrl → Throttle st ctrl now qid = none) ∧
    ∀ q, st.queues.find? (fun x => x.id = qid) = some q →
      ∀ st', Throttle st ctrl now qid = some st' →
        qid ∈ st'.helper.throttledQueues ∧
        ({ q with
            timeDomain := TimeDomainKind.throttled,
            pumpPolicy := PumpPolicy.MANUAL } ∈ st'.queues) ∧
        (q.IsEmpty = true →
          st'.helper.pendingPumpThrottledTasksRuntime
            = st.helper.pendingPumpThrottledTasksRuntime) ∧
        (q.IsEmpty = false → q.HasPendingImmediateWork = true →
          st.helper.pendingPumpThrottledTasksRuntime = 0 →
          st'.helper.pendingPumpThrottledTasksRuntime
            = ThrottledRunTime now) ∧
        (q.IsEmpty = false → q.HasPendingImmediateWork = false →
          st.helper.pendingPumpThrottledTasksRuntime = 0 →
          st.helper.timeDomain.wakeups = [] →
          ∃ rt, queueNextDelayedRuntime q = some rt ∧
            st'.helper.pendingPumpThrottledTasksRuntime
              = ThrottledRunTime rt) := by
  constructor
  · intro h
    rw [Throttle, if_pos h]
  · intro q hfind st' hsucc
    have hmemq : q ∈ st.queues := List.mem_of_find?_eq_some hfind
    have hidq : q.id = qid := by simpa using List.find?_some hfind
    rw [Throttle] at hsucc
    by_cases hc : qid = ctrl
    · rw [if_pos hc] at hsucc
      exact Option.noConfusion hsucc
    rw [if_neg hc, hfind] at hsucc
    simp only at hsucc
    cases hq : queueNextDelayedRuntime q with
    | none =>
      rw [hq] at hsucc
      simp only at hsucc
      by_cases hemp : q.IsEmpty = true
      · rw [if_pos hemp] at hsucc
        rw [Option.some.injEq] at hsucc
        rw [← hsucc]
        refine ⟨mem_insertThrottled _ _, mem_replaceTaskQueue_self hmemq hidq,
          fun _ => rfl, ?_, ?_⟩
        · intro hemp' _ _
          rw [hemp'] at hemp
          exact Bool.noConfusion hemp
        · intro hemp' _ _ _
          rw [hemp'] at hemp
          exact Bool.noConfusion hemp
      · rw [if_neg hemp] at hsucc
        by_cases himm : q.HasPendingImmediateWork = true
        · rw [if_pos himm] at hsucc
          rw [Option.some.injEq] at hsucc
          rw [← hsucc]
          refine ⟨?_, mem_replaceTaskQueue_self hmemq hidq, ?_, ?_, ?_⟩
          · rw [ThrottlingHelper.OnTimeDomainHasImmediateWork,
              (msp_fields _ now now).1]
            exact mem_insertThrottled _ _
          · intro hemp'
            exact absurd hemp' hemp
          · intro _ _ hpend0
            rw [ThrottlingHelper.OnTimeDomainHasImmediateWork]
            refine (msp_scheduled _ now now (Or.inl ?_)).1
            exact hpend0
          · intro _ himm' _ _
            rw [himm'] at himm
            exact Bool.noConfusion himm
        · rw [if_neg himm] at hsucc
          exfalso
          have hemp2 : q.IsEmpty = false := by
            cases he : q.IsEmpty
            · rfl
            · exact absurd he hemp
          have himm2 : q.HasPendingImmediateWork = false := by
            cases hi : q.HasPendingImmediateWork
            · rfl
            · exact absurd hi himm
          obtain ⟨rt, hrt⟩ := queueNext_of_nonempty_noimm hemp2 himm2
          rw [hq] at hrt
          exact Option.noConfusion hrt
    | some rt =>
      rw [hq] at hsucc
      simp only at hsucc
      by_cases hemp : q.IsEmpty = true
      · rw [if_pos hemp] at hsucc
        rw [Option.some.injEq] at hsucc
        rw [← hsucc]
        refine ⟨mem_insertThrottled _ _, mem_replaceTaskQueue_self hmemq hidq,
          fun _ => rfl, ?_, ?_⟩
        · intro hemp' _ _
          rw [hemp'] at hemp
          exact Bool.noConfusion hemp
        · intro hemp' _ _ _
          rw [hemp'] at hemp
          exact Bool.noConfusion hemp
      · rw [if_neg hemp] at hsucc
        by_cases himm : q.HasPendingImmediateWork = true
        · rw [if_pos himm] at hsucc
          rw [Option.some.injEq] at hsucc
          rw [← hsucc]
          refine ⟨?_, mem_replaceTaskQueue_self hmemq hidq, ?_, ?_, ?_⟩
          · rw [ThrottlingHelper.OnTimeDomainHasImmediateWork,
              (msp_fields _ now now).1]
            exact mem_insertThrottled _ _
          · intro hemp'
            exact absurd hemp' hemp
          · intro _ _ hpend0
            rw [ThrottlingHelper.OnTimeDomainHasImmediateWork]
            refine (msp_scheduled _ now now (Or.inl ?_)).1
            exact hpend0
          · intro _ himm' _ _
            rw [himm'] at himm
            exact Bool.noConfusion himm
        · rw [if_neg himm] at hsucc
          rw [ThrottlingHelper.OnTimeDomainHasDelayedWork] at hsucc
          cases hnextd : (ThrottledTimeDomain.NextScheduledRunTime
              { st.helper.timeDomain with
                wakeups := st.helper.timeDomain.wakeups ++ [(rt, qid)] }) with
          | none =>
            rw [hnextd] at hsucc
            simp at hsucc
          | some next =>
            rw [hnextd] at hsucc
            simp only [Option.some.injEq] at hsucc
            rw [← hsucc]
            refine ⟨?_, mem_replaceTaskQueue_self hmemq hidq, ?_, ?_, ?_⟩
            · rw [(msp_fields _ now next).1]
              exact mem_insertThrottled _ _
            · intro hemp'
              exact absurd hemp' hemp
            · intro _ himm' _
              rw [himm'] at himm
              exact absurd rfl himm
            · intro _ _ hpend0 hwk0
              refine ⟨rt, rfl, ?_⟩
              have hnext_rt : next = rt := by
                rw [ThrottledTimeDomain.NextScheduledRunTime] at hnextd
                simp only [hwk0] at hnextd
                simp at hnextd
                omega
              rw [hnext_rt] at *
              refine (msp_scheduled _ now rt (Or.inl ?_)).1
              exact hpend0

/-- Witness for C7: throttling the control queue itself is rejected;
throttling queue 3 (non-empty, immediate work pending) adds it to the
throttled set, switches it to throttled/MANUAL, and schedules a pump at the
1s boundary. -/
theorem Throttle_spec_witness :
    Throttle c7State 99 0 99 = none ∧
    3 ∈ c7Result.helper.throttledQueues ∧
    (⟨3, TimeDomainKind.throttled, PumpPolicy.MANUAL, [11], [], []⟩ : TaskQueue)
      ∈ c7Result.queues ∧
    c7Result.helper.pendingPumpThrottledTasksRuntime = ThrottledRunTime 0 := by
  have h := (Throttle_spec c7State 99 0 3).2
    ⟨3, TimeDomainKind.realTime, PumpPolicy.AUTO, [11], [], []⟩ (by decide)
    c7Result (by decide)
  exact ⟨(Throttle_spec c7State 99 0 99).1 rfl, h.1, h.2.1,
    h.2.2.2.1 (by decide) (by decide) rfl⟩

/-- The queues after a successful `Throttle` are the original queues with the
throttled queue reconfigured. -/
theorem throttle_queues {st : ThrottlerState} {ctrl : Nat} {now : Int}
    {qid : Nat} {st' : ThrottlerState} {q : TaskQueue}
    (hfind : st.queues.find? (fun x => x.id = qid) = some q)
    (h : Throttle st ctrl now qid = some st') :
    st'.queues = replaceTaskQueue st.queues qid
      { q with
        timeDomain := TimeDomainKind.throttled,
        pumpPolicy := PumpPolicy.MANUAL } := by
  rw [Throttle] at h
  by_cases hc : qid = ctrl
  · rw [if_pos hc] at h
    exact Option.noConfusion h
  rw [if_neg hc, hfind] at h
  simp only at h
  cases hq : queueNextDelayedRuntime q <;> rw [hq] at h <;> simp only at h <;>
    split at h
  · rw [Option.some.injEq] at h
    rw [← h]
  · split at h
    · rw [Option.some.injEq] at h
      rw [← h]
    · split at h
      · exact Option.noConfusion h
      · rw [Option.some.injEq] at h
        rw [← h]
  · rw [Option.some.injEq] at h
    rw [← h]
  · split at h
    · rw [Option.some.injEq] at h
      rw [← h]
    · split at h
      · exact Option.noConfusion h
      · rw [Option.some.injEq] at h
        rw [← h]

/-- C8: throttling a queue and then immediately unthrottling it restores the
queue to AUTO pump policy and the real time domain with all of its task lists
(pending immediate, pending delayed, and dispatched work) exactly as before
— no tasks lost, nothing dispatched twice — removes it from
`throttled_queues_`, and leaves every other queue untouched. -/
theorem ThrottleUnthrottle_roundtrip (st : ThrottlerState) (ctrl : Nat)
    (now : Int) (qid : Nat) :
    ∀ q, st.queues.find? (fun x => x.id = qid) = some q →
      ∀ st', Throttle st ctrl now qid = some st' →
        qid ∉ (Unthrottle st' qid).helper.throttledQueues ∧
        ({ q with
            timeDomain := TimeDomainKind.realTime,
            pumpPolicy := PumpPolicy.AUTO } ∈ (Unthrottle st' qid).queues) ∧
        (∀ x ∈ st.queues, x.id ≠ qid → x ∈ (Unthrottle st' qid).queues) := by
  intro q hfind st' hsucc
  have hqueues := throttle_queues hfind hsucc
  have hmemq : q ∈ st.queues := List.mem_of_find?_eq_some hfind
  have hidq : q.id = qid := by simpa using List.find?_some hfind
  refine ⟨?_, ?_, ?_⟩
  · rw [Unthrottle]
    simp only
    intro hcon
    have := (List.mem_filter.mp hcon).2
    simp at this
  · rw [Unthrottle]
    simp only
    rw [hqueues]
    refine List.mem_map.mpr
      ⟨{ q with
          timeDomain := TimeDomainKind.throttled,
          pumpPolicy := PumpPolicy.MANUAL },
        mem_replaceTaskQueue_self hmemq hidq, ?_⟩
    rw [if_pos hidq]
  · intro x hx hxne
    rw [Unthrottle]
    simp only
    rw [hqueues]
    refine List.mem_map.mpr ⟨x, List.mem_map.mpr ⟨x, hx, ?_⟩, ?_⟩
    · rw [if_neg hxne]
    · rw [if_neg hxne]

/-- Witness for C8: after throttling queue 3 and unthrottling it again, the
queue is out of the throttled set and back to its original configuration
with its tasks intact. -/
theorem ThrottleUnthrottle_roundtrip_witness :
    3 ∉ (Unthrottle c7Result 3).helper.throttledQueues ∧
    (⟨3, TimeDomainKind.realTime, PumpPolicy.AUTO, [11], [], []⟩ : TaskQueue)
      ∈ (Unthrottle c7Result 3).queues := by
  have h := ThrottleUnthrottle_roundtrip c7State 99 0 3
    ⟨3, TimeDomainKind.realTime, PumpPolicy.AUTO, [11], [], []⟩ (by decide)
    c7Result (by decide)
  exact ⟨h.1, h.2.1⟩

theorem filter_idem {α : Type _} (p : α → Bool) (l : List α) :
    (l.filter p).filter p = l.filter p := by
  induction l with
  | nil => rfl
  | cons x xs ih =>
    by_cases h : p x
    · simp [List.filter_cons, h, ih]
    · simp [List.filter_cons, h, ih]

theorem unthrottleQueues_idem (qid : Nat) (l : List TaskQueue) :
    ((l.map (fun q => if q.id = qid then
        { q with
          timeDomain := TimeDomainKind.realTime,
          pumpPolicy := PumpPolicy.AUTO }
      else q)).map (fun q => if q.id = qid then
        { q with
          timeDomain := TimeDomainKind.realTime,
          pumpPolicy := PumpPolicy.AUTO }
      else q))
    = l.map (fun q => if q.id = qid then
        { q with
          timeDomain := TimeDomainKind.realTime,
          pumpPolicy := PumpPolicy.AUTO }
      else q) := by
  rw [List.map_map]
  apply List.map_congr_left
  intro q _
  simp only [Function.comp_apply]
  by_cases h : q.id = qid
  · simp only [if_pos h]
  · simp only [if_neg h]

/-- C10: `Unthrottle` is unconditional and idempotent: for every queue —
including one not currently in `throttled_queues_`, where the erase is a
no-op — it moves the queue to the real time domain with AUTO pump policy
without touching its tasks or the pending pump, and applying it twice leaves
exactly the state of applying it once. -/
theorem Unthrottle_spec (st : ThrottlerState) (qid : Nat) :
    Unthrottle (Unthrottle st qid) qid = Unthrottle st qid ∧
    qid ∉ (Unthrottle st qid).helper.throttledQueues ∧
    (qid ∉ st.helper.throttledQueues →
      (Unthrottle st qid).helper.throttledQueues
        = st.helper.throttledQueues) ∧
    (∀ q ∈ st.queues, q.id = qid →
      { q with
        timeDomain := TimeDomainKind.realTime,
        pumpPolicy := PumpPolicy.AUTO } ∈ (Unthrottle st qid).queues) ∧
    (∀ q ∈ st.queues, q.id ≠ qid → q ∈ (Unthrottle st qid).queues) ∧
    (Unthrottle st qid).helper.pendingPumpThrottledTasksRuntime
      = st.helper.pendingPumpThrottledTasksRuntime := by
  refine ⟨?_, ?_, ?_, ?_, ?_, rfl⟩
  · simp only [Unthrottle]
    rw [filter_idem, filter_idem, unthrottleQueues_idem]
  · simp only [Unthrottle]
    intro hcon
    have := (List.mem_filter.mp hcon).2
    simp at this
  · intro habs
    simp only [Unthrottle]
    apply List.filter_eq_self.mpr
    intro a ha
    simp only [decide_eq_true_eq]
    intro hcon
    exact habs (hcon ▸ ha)
  · intro q hq hid
    simp only [Unthrottle]
    exact List.mem_map.mpr ⟨q, hq, by rw [if_pos hid]⟩
  · intro q hq hid
    simp only [Unthrottle]
    exact List.mem_map.mpr ⟨q, hq, by rw [if_neg hid]⟩

/-- Witness for C10: unthrottling queue 2, which is configured throttled but
absent from the throttled set, is a no-op on the set and restores the
real/AUTO configuration; doing it twice is the same as once. -/
theorem Unthrottle_spec_witness :
    Unthrottle (Unthrottle c10State 2) 2 = Unthrottle c10State 2 ∧
    (Unthrottle c10State 2).helper.throttledQueues
      = c10State.helper.throttledQueues ∧
    (⟨2, TimeDomainKind.realTime, PumpPolicy.AUTO, [7], [], []⟩ : TaskQueue)
      ∈ (Unthrottle c10State 2).queues := by
  have h := Unthrottle_spec c10State 2
  exact ⟨h.1, h.2.2.1 (by decide),
    h.2.2.2.1 ⟨2, TimeDomainKind.throttled, PumpPolicy.MANUAL, [7], [], []⟩
      (by decide) rfl⟩
